import Mathlib

/-!
# Verification of the finite-diff stencil library

A shallow embedding of `finitediff.cpp` / `finitediff.hpp` (namespace `fd`).

Modelling conventions:

* `double` is modelled by `ℚ` (exact stencil arithmetic; the claims under test
  are about the algebraic structure of the loops, not floating-point rounding).
* An Eigen vector is a `List ℚ`; an Eigen matrix accessed through `(i, j)` is a
  row-major `List (List ℚ)`, while the Jacobian engine (which only ever touches
  whole columns via `jac.col(i)`) is modelled as the list of its columns.
* A C++ `AccuracyOrder` value is its underlying integer (`ℤ`); the `default:`
  branches of the coefficient lookups throw, modelled by `Except String`.
* `assert(...)` (active in a debug build, the configuration the repository's
  own tests document) is modelled as an `Except.error` result.
* The mutable working point `x_mutable` is threaded explicitly through fold
  states; each state also records every argument passed to the target function
  (`evals`) and the value of `x_mutable` after every completed stencil step
  (`trace`), so the restore-after-each-step policy is a provable statement
  rather than a baked-in simplification.
-/

namespace fd

/-- Underlying integer value of the C++ enumerator `SECOND`. -/
def SECOND : ℤ := 0

/-- Underlying integer value of the C++ enumerator `FOURTH`. -/
def FOURTH : ℤ := 1

/-- Underlying integer value of the C++ enumerator `SIXTH`. -/
def SIXTH : ℤ := 2

/-- Underlying integer value of the C++ enumerator `EIGHTH`. -/
def EIGHTH : ℤ := 3

/-- The external coefficients, `c1`, in `c1 * f(x + c2)` (switch over the
accuracy order; the `default:` branch throws `invalid accuracy order`). -/
def get_external_coeffs (accuracy : ℤ) : Except String (List ℚ) :=
  if accuracy = SECOND then Except.ok [1, -1]
  else if accuracy = FOURTH then Except.ok [1, -8, 8, -1]
  else if accuracy = SIXTH then Except.ok [-1, 9, -45, 45, -9, 1]
  else if accuracy = EIGHTH then Except.ok [3, -32, 168, -672, 672, -168, 32, -3]
  else Except.error "invalid accuracy order"

/-- The internal coefficients, `c2`, in `c1 * f(x + c2)`. -/
def get_interior_coeffs (accuracy : ℤ) : Except String (List ℚ) :=
  if accuracy = SECOND then Except.ok [1, -1]
  else if accuracy = FOURTH then Except.ok [-2, -1, 1, 2]
  else if accuracy = SIXTH then Except.ok [-3, -2, -1, 1, 2, 3]
  else if accuracy = EIGHTH then Except.ok [-4, -3, -2, -1, 1, 2, 3, 4]
  else Except.error "invalid accuracy order"

/-- The denominators of the finite difference. -/
def get_denominator (accuracy : ℤ) : Except String ℚ :=
  if accuracy = SECOND then Except.ok 2
  else if accuracy = FOURTH then Except.ok 12
  else if accuracy = SIXTH then Except.ok 60
  else if accuracy = EIGHTH then Except.ok 840
  else Except.error "invalid accuracy order"

/-- The working point with coordinate `i` incremented by `c`
(the statement `x_mutable[i] += c`). -/
def perturb (x : List ℚ) (i : ℕ) (c : ℚ) : List ℚ :=
  x.set i (x.getD i 0 + c)

/-- State of the inner stencil loop of `finite_gradient`: the working point,
the accumulated entry `grad[i]`, the arguments passed to `f`, and the working
point after each completed step. -/
structure GradInner where
  xm : List ℚ
  acc : ℚ
  evals : List (List ℚ)
  trace : List (List ℚ)

/-- One step of the inner loop of `finite_gradient`:
`x_mutable[i] += internal_coeffs[ci] * eps; grad[i] += external_coeffs[ci] * f(x_mutable);
x_mutable[i] = x[i];`. -/
def grad_inner_step (x : List ℚ) (f : List ℚ → ℚ) (i : ℕ) (eps : ℚ)
    (s : GradInner) (c : ℚ × ℚ) : GradInner :=
  let x1 := perturb s.xm i (c.2 * eps)
  { xm := x1.set i (x.getD i 0)
    acc := s.acc + c.1 * f x1
    evals := s.evals ++ [x1]
    trace := s.trace ++ [x1.set i (x.getD i 0)] }

/-- The inner stencil loop of `finite_gradient` over the paired coefficient
list `external_coeffs.zip internal_coeffs`. -/
def grad_inner (x : List ℚ) (f : List ℚ → ℚ) (i : ℕ) (eps : ℚ)
    (coeffs : List (ℚ × ℚ)) (s : GradInner) : GradInner :=
  coeffs.foldl (grad_inner_step x f i eps) s

/-- State of the outer coordinate loop of `finite_gradient`. -/
structure GradOuter where
  xm : List ℚ
  grad : List ℚ
  evals : List (ℕ × List ℚ)
  trace : List (List ℚ)

/-- One iteration of the outer loop of `finite_gradient` (coordinate `i`),
including the division `grad[i] /= denom`. -/
def grad_outer_step (x : List ℚ) (f : List ℚ → ℚ) (eps : ℚ)
    (coeffs : List (ℚ × ℚ)) (denom : ℚ) (s : GradOuter) (i : ℕ) : GradOuter :=
  let t := grad_inner x f i eps coeffs ⟨s.xm, 0, [], []⟩
  { xm := t.xm
    grad := s.grad.set i (t.acc / denom)
    evals := s.evals ++ t.evals.map (fun p => (i, p))
    trace := s.trace ++ t.trace }

/-- The loop body of `finite_gradient` (lines 82-92 of `finitediff.cpp`):
`grad.setZero(x.rows())`, then the nested perturb/evaluate/restore loops. -/
def finite_gradient_core (x : List ℚ) (f : List ℚ → ℚ)
    (coeffs : List (ℚ × ℚ)) (denom : ℚ) (eps : ℚ) : GradOuter :=
  (List.range x.length).foldl (grad_outer_step x f eps coeffs denom)
    ⟨x, List.replicate x.length 0, [], []⟩

/-- `finite_gradient`: coefficient lookup (which may throw), then the loop. -/
def finite_gradient (x : List ℚ) (f : List ℚ → ℚ) (accuracy : ℤ) (eps : ℚ) :
    Except String (List ℚ) := do
  let external_coeffs ← get_external_coeffs accuracy
  let internal_coeffs ← get_interior_coeffs accuracy
  let d ← get_denominator accuracy
  return (finite_gradient_core x f (external_coeffs.zip internal_coeffs)
    (d * eps) eps).grad

/-- Per-coordinate value accumulated by the gradient loop. -/
def gradVal (x : List ℚ) (f : List ℚ → ℚ) (eps : ℚ) (coeffs : List (ℚ × ℚ))
    (denom : ℚ) (i : ℕ) : ℚ :=
  (coeffs.map (fun c => c.1 * f (perturb x i (c.2 * eps)))).sum / denom

/-- Scalar multiple of an Eigen vector (`c * v`). -/
def vsmul (c : ℚ) (v : List ℚ) : List ℚ := v.map (fun a => c * a)

/-- Componentwise sum of two Eigen vectors (`operator+=`); Eigen requires the
operands to have equal sizes, on which `zipWith` agrees with it. -/
def vadd (a b : List ℚ) : List ℚ := List.zipWith (· + ·) a b

/-- Componentwise division of an Eigen vector by a scalar (`v /= c`). -/
def vdiv (v : List ℚ) (c : ℚ) : List ℚ := v.map (fun a => a / c)

/-- State of the inner stencil loop of `finite_jacobian`: the working point,
the accumulated column `jac.col(i)`, the arguments passed to `f`, and the
working point after each completed step. -/
structure JacInner where
  xm : List ℚ
  col : List ℚ
  evals : List (List ℚ)
  trace : List (List ℚ)

/-- One step of the inner loop of `finite_jacobian`:
`x_mutable[i] += internal_coeffs[ci] * eps;
jac.col(i) += external_coeffs[ci] * f(x_mutable); x_mutable[i] = x[i];`. -/
def jac_inner_step (x : List ℚ) (F : List ℚ → List ℚ) (i : ℕ) (eps : ℚ)
    (s : JacInner) (c : ℚ × ℚ) : JacInner :=
  let x1 := perturb s.xm i (c.2 * eps)
  { xm := x1.set i (x.getD i 0)
    col := vadd s.col (vsmul c.1 (F x1))
    evals := s.evals ++ [x1]
    trace := s.trace ++ [x1.set i (x.getD i 0)] }

/-- The inner stencil loop of `finite_jacobian`. -/
def jac_inner (x : List ℚ) (F : List ℚ → List ℚ) (i : ℕ) (eps : ℚ)
    (coeffs : List (ℚ × ℚ)) (s : JacInner) : JacInner :=
  coeffs.foldl (jac_inner_step x F i eps) s

/-- State of the outer coordinate loop of `finite_jacobian`; the matrix is the
list of its columns (the loop only accesses it through `jac.col(i)`). -/
structure JacOuter where
  xm : List ℚ
  cols : List (List ℚ)
  evals : List (ℕ × List ℚ)
  trace : List (List ℚ)

/-- One iteration of the outer loop of `finite_jacobian` (coordinate `i`),
including the division `jac.col(i) /= denom`; the column starts from the
zero-initialization `jac.setZero(f(x).rows(), x.rows())`. -/
def jac_outer_step (x : List ℚ) (F : List ℚ → List ℚ) (eps : ℚ)
    (coeffs : List (ℚ × ℚ)) (denom : ℚ) (s : JacOuter) (i : ℕ) : JacOuter :=
  let t := jac_inner x F i eps coeffs ⟨s.xm, List.replicate (F x).length 0, [], []⟩
  { xm := t.xm
    cols := s.cols.set i (vdiv t.col denom)
    evals := s.evals ++ t.evals.map (fun p => (i, p))
    trace := s.trace ++ t.trace }

/-- The loop body of `finite_jacobian` (lines 110-120 of `finitediff.cpp`). -/
def finite_jacobian_core (x : List ℚ) (F : List ℚ → List ℚ)
    (coeffs : List (ℚ × ℚ)) (denom : ℚ) (eps : ℚ) : JacOuter :=
  (List.range x.length).foldl (jac_outer_step x F eps coeffs denom)
    ⟨x, List.replicate x.length (List.replicate (F x).length 0), [], []⟩

/-- `finite_jacobian`: coefficient lookup (which may throw), then the loop.
The result is the `f(x).rows() × x.rows()` matrix as its list of columns. -/
def finite_jacobian (x : List ℚ) (F : List ℚ → List ℚ) (accuracy : ℤ)
    (eps : ℚ) : Except String (List (List ℚ)) := do
  let external_coeffs ← get_external_coeffs accuracy
  let internal_coeffs ← get_interior_coeffs accuracy
  let d ← get_denominator accuracy
  return (finite_jacobian_core x F (external_coeffs.zip internal_coeffs)
    (d * eps) eps).cols

/-- The raw (undivided) column accumulated by the Jacobian inner loop when it
starts from the restored working point. -/
def jacColRaw (x : List ℚ) (F : List ℚ → List ℚ) (i : ℕ) (eps : ℚ)
    (coeffs : List (ℚ × ℚ)) : List ℚ :=
  (jac_inner x F i eps coeffs ⟨x, List.replicate (F x).length 0, [], []⟩).col

/-- Per-coordinate column written by the Jacobian outer loop. -/
def jacVal (x : List ℚ) (F : List ℚ → List ℚ) (eps : ℚ)
    (coeffs : List (ℚ × ℚ)) (denom : ℚ) (i : ℕ) : List ℚ :=
  vdiv (jacColRaw x F i eps coeffs) denom

/-- State of the doubly-nested stencil loop of `finite_hessian`. -/
structure HessInner where
  xm : List ℚ
  acc : ℚ
  evals : List (List ℚ)
  trace : List (List ℚ)

/-- One step of the double stencil loop of `finite_hessian`:
`x_mutable[i] += internal_coeffs[ci] * eps; x_mutable[j] += internal_coeffs[cj] * eps;
hess(i, j) += external_coeffs[ci] * external_coeffs[cj] * f(x_mutable);
x_mutable[j] = x[j]; x_mutable[i] = x[i];`. -/
def hess_inner_step (x : List ℚ) (f : List ℚ → ℚ) (i j : ℕ) (eps : ℚ)
    (s : HessInner) (c : (ℚ × ℚ) × ℚ × ℚ) : HessInner :=
  let x2 := perturb (perturb s.xm i (c.1.2 * eps)) j (c.2.2 * eps)
  { xm := (x2.set j (x.getD j 0)).set i (x.getD i 0)
    acc := s.acc + c.1.1 * c.2.1 * f x2
    evals := s.evals ++ [x2]
    trace := s.trace ++ [(x2.set j (x.getD j 0)).set i (x.getD i 0)] }

/-- The double stencil loop (`for ci ... for cj ...`) of `finite_hessian`,
flattened over the lexicographic list of coefficient pairs. -/
def hess_inner (x : List ℚ) (f : List ℚ → ℚ) (i j : ℕ) (eps : ℚ)
    (coeffs : List (ℚ × ℚ)) (s : HessInner) : HessInner :=
  (coeffs.flatMap (fun a => coeffs.map (fun b => (a, b)))).foldl
    (hess_inner_step x f i j eps) s

/-- Write entry `(i, j)` of a row-major matrix (`hess(i, j) = v`). -/
def set2 (M : List (List ℚ)) (i j : ℕ) (v : ℚ) : List (List ℚ) :=
  M.set i ((M.getD i []).set j v)

/-- Read entry `(i, j)` of a row-major matrix. -/
def entry (M : List (List ℚ)) (i j : ℕ) : ℚ :=
  (M.getD i []).getD j 0

/-- State of the outer pair-of-coordinates loops of `finite_hessian`. -/
structure HessOuter where
  xm : List ℚ
  hess : List (List ℚ)
  evals : List (ℕ × ℕ × List ℚ)
  trace : List (List ℚ)

/-- The symmetric pair of writes `hess(i, j) /= denom; hess(j, i) = hess(i, j);`
performed after the double stencil loop of a pair `(i, j)`. -/
def hess_write (H : List (List ℚ)) (i j : ℕ) (v : ℚ) : List (List ℚ) :=
  set2 (set2 H i j v) j i v

/-- One iteration of the inner `j` loop of `finite_hessian` for the pair
`(i, j)`: run the double stencil loop, divide, and store symmetrically. -/
def hess_pair_step (x : List ℚ) (f : List ℚ → ℚ) (eps : ℚ)
    (coeffs : List (ℚ × ℚ)) (denom2 : ℚ) (i : ℕ) (s : HessOuter) (j : ℕ) :
    HessOuter :=
  let t := hess_inner x f i j eps coeffs ⟨s.xm, 0, [], []⟩
  { xm := t.xm
    hess := hess_write s.hess i j (t.acc / denom2)
    evals := s.evals ++ t.evals.map (fun p => (i, j, p))
    trace := s.trace ++ t.trace }

/-- The loop body of `finite_hessian` (lines 139-157 of `finitediff.cpp`):
`hess.setZero(x.rows(), x.rows())`, then `for i in [0, n)`,
`for j in [i, n)`, the double stencil loop and the symmetric store. -/
def finite_hessian_core (x : List ℚ) (f : List ℚ → ℚ)
    (coeffs : List (ℚ × ℚ)) (denom2 : ℚ) (eps : ℚ) : HessOuter :=
  (List.range x.length).foldl
    (fun s i => (List.range' i (x.length - i)).foldl
      (hess_pair_step x f eps coeffs denom2 i) s)
    ⟨x, List.replicate x.length (List.replicate x.length 0), [], []⟩

/-- `finite_hessian`: coefficient lookup, then the loop; the divisor is
`denom * denom` with `denom = get_denominator(accuracy) * eps`. -/
def finite_hessian (x : List ℚ) (f : List ℚ → ℚ) (accuracy : ℤ) (eps : ℚ) :
    Except String (List (List ℚ)) := do
  let external_coeffs ← get_external_coeffs accuracy
  let internal_coeffs ← get_interior_coeffs accuracy
  let d ← get_denominator accuracy
  return (finite_hessian_core x f (external_coeffs.zip internal_coeffs)
    ((d * eps) * (d * eps)) eps).hess

/-- The raw (undivided) accumulator of the double stencil loop for a pair
`(i, j)`, started from the restored working point. -/
def hessValRaw (x : List ℚ) (f : List ℚ → ℚ) (i j : ℕ) (eps : ℚ)
    (coeffs : List (ℚ × ℚ)) : ℚ :=
  (hess_inner x f i j eps coeffs ⟨x, 0, [], []⟩).acc

/-- The value stored at `hess(i, j)` and `hess(j, i)` for a pair `(i, j)`. -/
def hessVal (x : List ℚ) (f : List ℚ → ℚ) (eps : ℚ) (coeffs : List (ℚ × ℚ))
    (denom2 : ℚ) (i j : ℕ) : ℚ :=
  hessValRaw x f i j eps coeffs / denom2

/-- The list of coordinate pairs visited by the Hessian's two outer loops,
in visit order. -/
def hessPairs (n : ℕ) : List (ℕ × ℕ) :=
  (List.range n).flatMap (fun i => (List.range' i (n - i)).map (fun j => (i, j)))

/-- A row-major matrix of shape `n × n`: `n` rows, each of length `n`. -/
def ShapeN (H : List (List ℚ)) (n : ℕ) : Prop :=
  H.length = n ∧ ∀ a < n, (H.getD a []).length = n

/-- A row-major matrix of shape `r × c`: `r` rows, each of length `c`. -/
def ShapeRC (H : List (List ℚ)) (r c : ℕ) : Prop :=
  H.length = r ∧ ∀ a < r, (H.getD a []).length = c

/-- The row-by-row visit order of a nested `for i < r { for j < c }` loop. -/
def rcPairs (r c : ℕ) : List (ℕ × ℕ) :=
  (List.range r).flatMap (fun i => (List.range c).map (fun j => (i, j)))

/-- Number of rows of a row-major Eigen matrix. -/
def rowsCount (M : List (List ℚ)) : ℕ := M.length

/-- Number of columns of a row-major Eigen matrix. -/
def colsCount (M : List (List ℚ)) : ℕ := (M.getD 0 []).length

/-- A well-formed `r × c` row-major matrix: every row has the same length. -/
def MatWF (M : List (List ℚ)) : Prop :=
  ∀ row ∈ M, row.length = colsCount M

/-- `compare_gradient`: the `assert(x.rows() == y.rows())` precondition
(modelled as an error), then the elementwise tolerance loop. The debug
message `msg` only feeds the diagnostic sink and is otherwise unused. -/
def compare_gradient (x y : List ℚ) (test_eps : ℚ) (msg : String) :
    Except String Bool :=
  if x.length = y.length then
    Except.ok ((List.range x.length).foldl (fun same i =>
      if |x.getD i 0 - y.getD i 0| >
          test_eps * max (max |x.getD i 0| |y.getD i 0|) 1 then false else same)
      true)
  else Except.error "assertion failed: x.rows() == y.rows()"

/-- `compare_jacobian`: the two shape asserts, then the elementwise loop over
rows and columns. -/
def compare_jacobian (x y : List (List ℚ)) (test_eps : ℚ) (msg : String) :
    Except String Bool :=
  if rowsCount x = rowsCount y ∧ colsCount x = colsCount y then
    Except.ok ((List.range (rowsCount x)).foldl (fun same i =>
      (List.range (colsCount x)).foldl (fun same j =>
        if |entry x i j - entry y i j| >
            test_eps * max (max |entry x i j| |entry y i j|) 1 then false
        else same) same)
      true)
  else Except.error "assertion failed: x.rows() == y.rows() && x.cols() == y.cols()"

/-- `compare_hessian` simply forwards to `compare_jacobian`. -/
def compare_hessian (x y : List (List ℚ)) (test_eps : ℚ) (msg : String) :
    Except String Bool :=
  compare_jacobian x y test_eps msg

/-- `flatten`: allocate a vector of `X.size()` entries and write
`x(i * X.cols() + j) = X(i, j)` for every `i < X.rows()`, `j < X.cols()`. -/
def flatten (X : List (List ℚ)) : List ℚ :=
  (List.range (rowsCount X)).foldl (fun v i =>
    (List.range (colsCount X)).foldl (fun v j =>
      v.set (i * colsCount X + j) (entry X i j)) v)
    (List.replicate (rowsCount X * colsCount X) 0)

/-- `unflatten`: the `assert(x.size() % dim == 0)` precondition (modelled as an
error; for `dim = 0` the C++ `%` itself is a division by zero), then a
`x.size() / dim × dim` matrix with `X(i / dim, i % dim) = x(i)`. -/
def unflatten (x : List ℚ) (dim : ℕ) : Except String (List (List ℚ)) :=
  if x.length % dim = 0 ∧ dim ≠ 0 then
    Except.ok ((List.range x.length).foldl (fun M t =>
      set2 M (t / dim) (t % dim) (x.getD t 0))
      (List.replicate (x.length / dim) (List.replicate dim 0)))
  else Except.error "assertion failed: x.size() % dim == 0"

/-- Modelled from the spec: the body of the templated
`finite_jacobian<IsTensorOrderEven>` (declared in `finitediff.hpp` but defined
outside the available sources) evaluates, for each input coordinate `k`, the
per-coordinate finite-difference derivative slice — the same stencil
combination applied to the matrix-valued function `F`. `jac_slice` is that
`F(x).rows() × F(x).cols()` slice for coordinate `k`. -/
def jac_slice (x : List ℚ) (F : List ℚ → List (List ℚ)) (outer inr : List ℚ)
    (d eps : ℚ) (k : ℕ) : List (List ℚ) :=
  (List.range (rowsCount (F x))).map (fun i =>
    (List.range (colsCount (F x))).map (fun j =>
      ((List.range outer.length).map (fun s =>
        outer.getD s 0 * entry (F (perturb x k (inr.getD s 0 * eps))) i j)).sum
        / (d * eps)))

/-- Modelled from the spec: the templated `finite_jacobian<IsTensorOrderEven>`
organizes the per-coordinate slices into column-blocks of width `F(x).cols()`
when the tensor order is even (a `p × (q·n)` matrix), and into columns holding
the column-major vectorization of each slice when it is odd (a `(p·q) × n`
matrix). -/
def finite_jacobian_mat (isTensorOrderEven : Bool) (x : List ℚ)
    (F : List ℚ → List (List ℚ)) (accuracy : ℤ) (eps : ℚ) :
    Except String (List (List ℚ)) := do
  let external_coeffs ← get_external_coeffs accuracy
  let internal_coeffs ← get_interior_coeffs accuracy
  let d ← get_denominator accuracy
  let p := rowsCount (F x)
  let q := colsCount (F x)
  let n := x.length
  if isTensorOrderEven then
    return (List.range p).map (fun r => (List.range (q * n)).map (fun t =>
      entry (jac_slice x F external_coeffs internal_coeffs d eps (t / q)) r (t % q)))
  else
    return (List.range (p * q)).map (fun t => (List.range n).map (fun k =>
      entry (jac_slice x F external_coeffs internal_coeffs d eps k) (t % p) (t / p)))

/-- `finite_jacobian_tensor<TensorOrder>` forwards to
`finite_jacobian<TensorOrder % 2 == 0>` (line 84 of `finitediff.hpp`). -/
def finite_jacobian_tensor (tensorOrder : ℤ) (x : List ℚ)
    (F : List ℚ → List (List ℚ)) (accuracy : ℤ) (eps : ℚ) :
    Except String (List (List ℚ)) :=
  finite_jacobian_mat (tensorOrder % 2 == 0) x F accuracy eps

/-! ## Generic list helpers -/

theorem getD_set_self {α : Type _} (l : List α) (i : ℕ) (d : α) :
    l.set i (l.getD i d) = l := by
  induction l generalizing i with
  | nil => rfl
  | cons a t ih =>
    cases i with
    | zero => rfl
    | succ n => simpa using ih n

theorem getD_set_eq {α : Type _} (l : List α) (i : ℕ) (a d : α) (h : i < l.length) :
    (l.set i a).getD i d = a := by
  simp [List.getD_eq_getElem?_getD, List.getElem?_set_self h]

theorem getD_set_ne {α : Type _} (l : List α) {i j : ℕ} (a d : α) (h : i ≠ j) :
    (l.set i a).getD j d = l.getD j d := by
  simp [List.getD_eq_getElem?_getD, List.getElem?_set_ne h]

/-- Restoring the perturbed coordinate recovers the original point exactly. -/
theorem perturb_restore (x : List ℚ) (i : ℕ) (c : ℚ) :
    (perturb x i c).set i (x.getD i 0) = x := by
  rw [perturb, List.set_set, getD_set_self]

/-- A perturbed point agrees with the original at every other coordinate. -/
theorem perturb_getD_ne (x : List ℚ) {i m : ℕ} (c : ℚ) (h : i ≠ m) :
    (perturb x i c).getD m 0 = x.getD m 0 := by
  rw [perturb, getD_set_ne _ _ _ h]

theorem foldl_set_length {α : Type _} (g : ℕ → α) (L : List ℕ) (v : List α) :
    (L.foldl (fun w j => w.set j (g j)) v).length = v.length := by
  induction L generalizing v with
  | nil => rfl
  | cons a L ih => simpa using ih (v.set a (g a))

theorem foldl_set_getD_not_mem {α : Type _} (g : ℕ → α) (L : List ℕ) (v : List α)
    (i : ℕ) (d : α) (h : i ∉ L) :
    (L.foldl (fun w j => w.set j (g j)) v).getD i d = v.getD i d := by
  induction L generalizing v with
  | nil => rfl
  | cons a L ih =>
    have hai : a ≠ i := fun e => h (e ▸ List.mem_cons_self a L)
    have hiL : i ∉ L := fun e => h (List.mem_cons_of_mem a e)
    simp only [List.foldl_cons]
    rw [ih (v.set a (g a)) hiL, getD_set_ne v (g a) d hai]

theorem foldl_set_getD_mem {α : Type _} (g : ℕ → α) (L : List ℕ) (v : List α)
    (i : ℕ) (d : α) (hm : i ∈ L) (hnd : L.Nodup) (hi : i < v.length) :
    (L.foldl (fun w j => w.set j (g j)) v).getD i d = g i := by
  induction L generalizing v with
  | nil => cases hm
  | cons a L ih =>
    rcases List.nodup_cons.mp hnd with ⟨haL, hndL⟩
    by_cases hai : a = i
    · subst hai
      simp only [List.foldl_cons]
      rw [foldl_set_getD_not_mem g L _ _ _ haL, getD_set_eq _ _ _ _ hi]
    · have hiL : i ∈ L := by
        rcases List.mem_cons.mp hm with h | h
        · exact absurd h.symm hai
        · exact h
      simp only [List.foldl_cons]
      exact ih (v.set a (g a)) hiL hndL (by simpa using hi)

/-- Flattened-loop form of a fold over a `flatMap`. -/
theorem foldl_flatMap_eq {α β γ : Type _} (l : List α) (g : α → List β)
    (F : γ → β → γ) (s : γ) :
    (l.flatMap g).foldl F s = l.foldl (fun s a => (g a).foldl F s) s := by
  induction l generalizing s with
  | nil => rfl
  | cons a l ih => simp [List.flatMap_cons, List.foldl_append, ih]

/-- Summing over a `flatMap` is the iterated sum. -/
theorem sum_flatMap_eq {α β : Type _} [AddCommMonoid β] (l : List α)
    (g : α → List β) :
    (l.flatMap g).sum = (l.map (fun a => (g a).sum)).sum := by
  induction l with
  | nil => rfl
  | cons a l ih => simp [List.flatMap_cons, List.sum_append, ih]

/-- A map over the zip of two equal-length lists, rewritten as a map over the
index range (the loops of the source index both coefficient arrays by `ci`). -/
theorem map_zip_eq_map_range {α : Type _} (g : ℚ → ℚ → α) :
    ∀ (o : List ℚ) (inr : List ℚ), o.length = inr.length →
      (o.zip inr).map (fun c => g c.1 c.2) =
        (List.range o.length).map (fun j => g (o.getD j 0) (inr.getD j 0))
  | [], [], _ => rfl
  | [], _ :: _, h => by simp at h
  | _ :: _, [], h => by simp at h
  | a :: o, b :: inr, h => by
    have ih := map_zip_eq_map_range g o inr (by simpa using h)
    simp [List.range_succ_eq_map, List.map_map, ih, Function.comp_def]

/-! ## The gradient loop, characterized -/

/-- The inner stencil loop restores the working point after every step,
evaluates `f` exactly at the singly-perturbed points, and accumulates the
weighted sum of those evaluations. -/
theorem grad_inner_spec (x : List ℚ) (f : List ℚ → ℚ) (i : ℕ) (eps : ℚ)
    (coeffs : List (ℚ × ℚ)) (s : GradInner) (h : s.xm = x) :
    grad_inner x f i eps coeffs s =
      { xm := x
        acc := s.acc + (coeffs.map (fun c => c.1 * f (perturb x i (c.2 * eps)))).sum
        evals := s.evals ++ coeffs.map (fun c => perturb x i (c.2 * eps))
        trace := s.trace ++ coeffs.map (fun _ => x) } := by
  induction coeffs generalizing s with
  | nil =>
    obtain ⟨xm, acc, ev, tr⟩ := s
    simp only [GradInner.mk.injEq] at h ⊢
    simp [grad_inner, h]
  | cons c cs ih =>
    have hstep : grad_inner_step x f i eps s c =
        { xm := x
          acc := s.acc + c.1 * f (perturb x i (c.2 * eps))
          evals := s.evals ++ [perturb x i (c.2 * eps)]
          trace := s.trace ++ [x] } := by
      simp only [grad_inner_step, h]
      rw [perturb_restore]
    simp only [grad_inner, List.foldl_cons] at ih ⊢
    rw [ih (grad_inner_step x f i eps s c) (by rw [hstep]), hstep]
    simp [add_assoc]

/-- The outer coordinate loop of `finite_gradient`, characterized: the working
point is `x` on exit, every recorded post-step working point is `x`, each
evaluation is a single-coordinate perturbation of `x`, and the output vector is
built by writing `gradVal` at each visited coordinate. -/
theorem grad_outer_spec (x : List ℚ) (f : List ℚ → ℚ) (eps : ℚ)
    (coeffs : List (ℚ × ℚ)) (denom : ℚ) (L : List ℕ) (s : GradOuter)
    (h : s.xm = x) :
    L.foldl (grad_outer_step x f eps coeffs denom) s =
      { xm := x
        grad := L.foldl (fun v i => v.set i (gradVal x f eps coeffs denom i)) s.grad
        evals := s.evals ++
          L.flatMap (fun i => coeffs.map (fun c => (i, perturb x i (c.2 * eps))))
        trace := s.trace ++ L.flatMap (fun _ => coeffs.map (fun _ => x)) } := by
  induction L generalizing s with
  | nil =>
    obtain ⟨xm, gr, ev, tr⟩ := s
    simp only [GradOuter.mk.injEq] at h ⊢
    simp [h]
  | cons i L ih =>
    have hinner := grad_inner_spec x f i eps coeffs ⟨s.xm, 0, [], []⟩ h
    have hstep : grad_outer_step x f eps coeffs denom s i =
        { xm := x
          grad := s.grad.set i (gradVal x f eps coeffs denom i)
          evals := s.evals ++ coeffs.map (fun c => (i, perturb x i (c.2 * eps)))
          trace := s.trace ++ coeffs.map (fun _ => x) } := by
      simp [grad_outer_step, hinner, gradVal, List.map_map, Function.comp_def]
    simp only [List.foldl_cons]
    rw [ih (grad_outer_step x f eps coeffs denom s i) (by rw [hstep]), hstep]
    simp [List.flatMap_cons, List.append_assoc]

/-! ## The Jacobian loop, characterized -/

theorem getD_map_of_lt (f : ℚ → ℚ) (v : List ℚ) {r : ℕ} (h : r < v.length) :
    (v.map f).getD r 0 = f (v.getD r 0) := by
  rw [List.getD_eq_getElem?_getD, List.getD_eq_getElem?_getD, List.getElem?_map,
    List.getElem?_eq_getElem h]
  rfl

theorem getD_replicate_of_lt {α : Type _} (a d : α) {r n : ℕ} (h : r < n) :
    (List.replicate n a).getD r d = a := by
  rw [List.getD_eq_getElem?_getD,
    List.getElem?_eq_getElem (by simpa using h)]
  simp

theorem length_vadd (a b : List ℚ) : (vadd a b).length = min a.length b.length := by
  simp [vadd]

theorem getD_vadd (a b : List ℚ) {r : ℕ} (h1 : r < a.length) (h2 : r < b.length) :
    (vadd a b).getD r 0 = a.getD r 0 + b.getD r 0 := by
  rw [vadd, List.getD_eq_getElem?_getD, List.getD_eq_getElem?_getD,
    List.getD_eq_getElem?_getD, List.getElem?_zipWith,
    List.getElem?_eq_getElem h1, List.getElem?_eq_getElem h2]
  rfl

/-- The Jacobian inner loop restores the working point after every step and
evaluates `F` exactly at the singly-perturbed points (the accumulated column is
characterized separately). -/
theorem jac_inner_state (x : List ℚ) (F : List ℚ → List ℚ) (i : ℕ) (eps : ℚ)
    (coeffs : List (ℚ × ℚ)) (s : JacInner) (h : s.xm = x) :
    (jac_inner x F i eps coeffs s).xm = x ∧
    (jac_inner x F i eps coeffs s).evals =
      s.evals ++ coeffs.map (fun c => perturb x i (c.2 * eps)) ∧
    (jac_inner x F i eps coeffs s).trace = s.trace ++ coeffs.map (fun _ => x) := by
  induction coeffs generalizing s with
  | nil => exact ⟨h, by simp [jac_inner], by simp [jac_inner]⟩
  | cons c cs ih =>
    have hxm : (jac_inner_step x F i eps s c).xm = x := by
      simp only [jac_inner_step, h]
      rw [perturb_restore]
    have hev : (jac_inner_step x F i eps s c).evals =
        s.evals ++ [perturb x i (c.2 * eps)] := by
      simp [jac_inner_step, h]
    have htr : (jac_inner_step x F i eps s c).trace = s.trace ++ [x] := by
      simp only [jac_inner_step, h]
      rw [perturb_restore]
    simp only [jac_inner, List.foldl_cons] at ih ⊢
    obtain ⟨e1, e2, e3⟩ := ih (jac_inner_step x F i eps s c) hxm
    refine ⟨e1, ?_, ?_⟩
    · rw [e2, hev]; simp
    · rw [e3, htr]; simp

theorem getD_vsmul (c : ℚ) (v : List ℚ) {r : ℕ} (h : r < v.length) :
    (vsmul c v).getD r 0 = c * v.getD r 0 := by
  rw [vsmul, getD_map_of_lt _ _ h]

/-- The Jacobian inner loop accumulates, in each entry of the column, the
weighted sum of the corresponding output entries of `F`. -/
theorem jac_inner_col (x : List ℚ) (F : List ℚ → List ℚ) (i : ℕ) (eps : ℚ)
    (k : ℕ) (hF : ∀ y, (F y).length = k) (coeffs : List (ℚ × ℚ))
    (s : JacInner) (h : s.xm = x) (hcol : s.col.length = k) :
    (jac_inner x F i eps coeffs s).col.length = k ∧
    ∀ r < k, (jac_inner x F i eps coeffs s).col.getD r 0 =
      s.col.getD r 0 +
        (coeffs.map (fun c => c.1 * (F (perturb x i (c.2 * eps))).getD r 0)).sum := by
  induction coeffs generalizing s with
  | nil => exact ⟨hcol, by simp [jac_inner]⟩
  | cons c cs ih =>
    have hxm : (jac_inner_step x F i eps s c).xm = x := by
      simp only [jac_inner_step, h]
      rw [perturb_restore]
    have hlen : (jac_inner_step x F i eps s c).col.length = k := by
      simp [jac_inner_step, length_vadd, vsmul, hcol, hF]
    simp only [jac_inner, List.foldl_cons] at ih ⊢
    obtain ⟨e1, e2⟩ := ih (jac_inner_step x F i eps s c) hxm hlen
    refine ⟨e1, fun r hr => ?_⟩
    rw [e2 r hr]
    have hcolstep : (jac_inner_step x F i eps s c).col.getD r 0 =
        s.col.getD r 0 + c.1 * (F (perturb x i (c.2 * eps))).getD r 0 := by
      simp only [jac_inner_step, h]
      rw [getD_vadd _ _ (by rw [hcol]; exact hr)
        (by rw [vsmul, List.length_map, hF]; exact hr),
        getD_vsmul _ _ (by rw [hF]; exact hr)]
    rw [hcolstep]
    simp [add_assoc]

/-- The outer coordinate loop of `finite_jacobian`, characterized. -/
theorem jac_outer_spec (x : List ℚ) (F : List ℚ → List ℚ) (eps : ℚ)
    (coeffs : List (ℚ × ℚ)) (denom : ℚ) (L : List ℕ) (s : JacOuter)
    (h : s.xm = x) :
    L.foldl (jac_outer_step x F eps coeffs denom) s =
      { xm := x
        cols := L.foldl (fun v i => v.set i (jacVal x F eps coeffs denom i)) s.cols
        evals := s.evals ++
          L.flatMap (fun i => coeffs.map (fun c => (i, perturb x i (c.2 * eps))))
        trace := s.trace ++ L.flatMap (fun _ => coeffs.map (fun _ => x)) } := by
  induction L generalizing s with
  | nil =>
    obtain ⟨xm, cols, ev, tr⟩ := s
    simp only [JacOuter.mk.injEq] at h ⊢
    simp [h]
  | cons i L ih =>
    obtain ⟨h1, h2, h3⟩ := jac_inner_state x F i eps coeffs
      ⟨x, List.replicate (F x).length 0, [], []⟩ rfl
    have hstep : jac_outer_step x F eps coeffs denom s i =
        { xm := x
          cols := s.cols.set i (jacVal x F eps coeffs denom i)
          evals := s.evals ++ coeffs.map (fun c => (i, perturb x i (c.2 * eps)))
          trace := s.trace ++ coeffs.map (fun _ => x) } := by
      simp only [jac_outer_step, h, JacOuter.mk.injEq]
      refine ⟨h1, rfl, ?_, ?_⟩
      · rw [h2]; simp [List.map_map, Function.comp_def]
      · rw [h3]; simp
    simp only [List.foldl_cons]
    rw [ih (jac_outer_step x F eps coeffs denom s i) (by rw [hstep]), hstep]
    simp [List.flatMap_cons, List.append_assoc]

/-! ## Coefficient lookups and Except plumbing -/

theorem except_bind_ok {α β : Type _} (a : α) (g : α → Except String β) :
    (Except.ok a >>= g) = g a := rfl

theorem except_bind_error {α β : Type _} (e : String) (g : α → Except String β) :
    ((Except.error e : Except String α) >>= g) = Except.error e := rfl

theorem except_pure {α : Type _} (a : α) : (pure a : Except String α) = Except.ok a := rfl

/-- The two coefficient tables returned for the same accuracy order always
have the same length (the `assert` at the top of each engine). -/
theorem coeffs_length_eq (a : ℤ) (outer inr : List ℚ)
    (ho : get_external_coeffs a = Except.ok outer)
    (hi : get_interior_coeffs a = Except.ok inr) :
    outer.length = inr.length := by
  unfold get_external_coeffs at ho
  unfold get_interior_coeffs at hi
  split_ifs at ho hi <;> first
    | (cases ho; cases hi; rfl)
    | exact Except.noConfusion ho

/-! ## Claim C1 -/

/-- C1: for every point `x` of dimension `n`, every pure function, every
accuracy order whose stencil lookup succeeds with `(outer, inner, denominator)`
of length `s`, and every `eps`: `finite_gradient` returns a length-`n` vector
whose entry `i` is `(Σ_{j<s} outer[j] * f(x + inner[j]*eps*e_i)) / (denominator
* eps)`, and `finite_jacobian` returns a `k × n` matrix (`k` the dimension of
`f(x)`, the matrix given by its columns) whose column `i` is
`(Σ_{j<s} outer[j] * f(x + inner[j]*eps*e_i)) / (denominator * eps)`.
The Jacobian part assumes the target function has a fixed output dimension,
the typing discipline `ℝⁿ → ℝᵏ` of the spec (Eigen asserts it at `+=`). -/
theorem gradient_jacobian_stencil_formula
    (x : List ℚ) (f : List ℚ → ℚ) (F : List ℚ → List ℚ) (accuracy : ℤ)
    (eps : ℚ) (outer inr : List ℚ) (d : ℚ)
    (ho : get_external_coeffs accuracy = Except.ok outer)
    (hi : get_interior_coeffs accuracy = Except.ok inr)
    (hd : get_denominator accuracy = Except.ok d)
    (hF : ∀ y, (F y).length = (F x).length) :
    ∃ g J,
      finite_gradient x f accuracy eps = Except.ok g ∧
      finite_jacobian x F accuracy eps = Except.ok J ∧
      g.length = x.length ∧
      (∀ i < x.length,
        g.getD i 0 =
          ((List.range outer.length).map (fun j =>
            outer.getD j 0 * f (perturb x i (inr.getD j 0 * eps)))).sum
            / (d * eps)) ∧
      J.length = x.length ∧
      (∀ i < x.length,
        (J.getD i []).length = (F x).length ∧
        ∀ r < (F x).length,
          (J.getD i []).getD r 0 =
            ((List.range outer.length).map (fun j =>
              outer.getD j 0 * (F (perturb x i (inr.getD j 0 * eps))).getD r 0)).sum
              / (d * eps)) := by
  have hlen := coeffs_length_eq accuracy outer inr ho hi
  have hg : finite_gradient x f accuracy eps =
      Except.ok ((finite_gradient_core x f (outer.zip inr) (d * eps) eps).grad) := by
    simp only [finite_gradient, ho, hi, hd, except_bind_ok, except_pure]
  have hj : finite_jacobian x F accuracy eps =
      Except.ok ((finite_jacobian_core x F (outer.zip inr) (d * eps) eps).cols) := by
    simp only [finite_jacobian, ho, hi, hd, except_bind_ok, except_pure]
  have hgc := grad_outer_spec x f eps (outer.zip inr) (d * eps)
    (List.range x.length) ⟨x, List.replicate x.length 0, [], []⟩ rfl
  have hjc := jac_outer_spec x F eps (outer.zip inr) (d * eps)
    (List.range x.length)
    ⟨x, List.replicate x.length (List.replicate (F x).length 0), [], []⟩ rfl
  refine ⟨_, _, hg, hj, ?_, ?_, ?_, ?_⟩
  · rw [show finite_gradient_core x f (outer.zip inr) (d * eps) eps =
      (List.range x.length).foldl
        (grad_outer_step x f eps (outer.zip inr) (d * eps))
        ⟨x, List.replicate x.length 0, [], []⟩ from rfl, hgc]
    simp [foldl_set_length]
  · intro i hi'
    rw [show finite_gradient_core x f (outer.zip inr) (d * eps) eps =
      (List.range x.length).foldl
        (grad_outer_step x f eps (outer.zip inr) (d * eps))
        ⟨x, List.replicate x.length 0, [], []⟩ from rfl, hgc]
    have := foldl_set_getD_mem (gradVal x f eps (outer.zip inr) (d * eps))
      (List.range x.length) (List.replicate x.length 0) i 0
      (List.mem_range.mpr hi') (List.nodup_range x.length) (by simpa using hi')
    rw [this, gradVal,
      map_zip_eq_map_range (fun a b => a * f (perturb x i (b * eps))) outer inr hlen]
  · rw [show finite_jacobian_core x F (outer.zip inr) (d * eps) eps =
      (List.range x.length).foldl
        (jac_outer_step x F eps (outer.zip inr) (d * eps))
        ⟨x, List.replicate x.length (List.replicate (F x).length 0), [], []⟩ from rfl,
      hjc]
    simp [foldl_set_length]
  · intro i hi'
    rw [show finite_jacobian_core x F (outer.zip inr) (d * eps) eps =
      (List.range x.length).foldl
        (jac_outer_step x F eps (outer.zip inr) (d * eps))
        ⟨x, List.replicate x.length (List.replicate (F x).length 0), [], []⟩ from rfl,
      hjc]
    have hset := foldl_set_getD_mem (jacVal x F eps (outer.zip inr) (d * eps))
      (List.range x.length) (List.replicate x.length (List.replicate (F x).length 0))
      i ([] : List ℚ)
      (List.mem_range.mpr hi') (List.nodup_range x.length) (by simpa using hi')
    obtain ⟨hcl, hce⟩ := jac_inner_col x F i eps (F x).length hF (outer.zip inr)
      ⟨x, List.replicate (F x).length 0, [], []⟩ rfl (by simp)
    have hrawlen : (jacColRaw x F i eps (outer.zip inr)).length = (F x).length := hcl
    refine ⟨?_, ?_⟩
    · rw [hset, jacVal, vdiv, List.length_map, hrawlen]
    · intro r hr
      rw [hset, jacVal, vdiv,
        getD_map_of_lt _ _ (by rw [hrawlen]; exact hr)]
      rw [show jacColRaw x F i eps (outer.zip inr) =
        (jac_inner x F i eps (outer.zip inr)
          ⟨x, List.replicate (F x).length 0, [], []⟩).col from rfl]
      rw [hce r hr]
      rw [getD_replicate_of_lt _ _ hr, zero_add,
        map_zip_eq_map_range
          (fun a b => a * (F (perturb x i (b * eps))).getD r 0) outer inr hlen]

/-- Witness for C1 at a concrete input: `x = [1, 2]`, `f(v) = v₀·v₁`,
`F(v) = [v₀ + v₁]`, SECOND order, `eps = 1`. -/
theorem gradient_jacobian_stencil_formula_witness :
    (get_external_coeffs SECOND = Except.ok [1, -1] ∧
     get_interior_coeffs SECOND = Except.ok [1, -1] ∧
     get_denominator SECOND = Except.ok 2 ∧
     (∀ y : List ℚ, ((fun v : List ℚ => [v.getD 0 0 + v.getD 1 0]) y).length =
       ((fun v : List ℚ => [v.getD 0 0 + v.getD 1 0]) ([1, 2] : List ℚ)).length)) ∧
    (∃ g J,
      finite_gradient [1, 2] (fun v => v.getD 0 0 * v.getD 1 0) SECOND 1 =
        Except.ok g ∧
      finite_jacobian [1, 2] (fun v => [v.getD 0 0 + v.getD 1 0]) SECOND 1 =
        Except.ok J ∧
      g.length = ([1, 2] : List ℚ).length ∧
      (∀ i < ([1, 2] : List ℚ).length,
        g.getD i 0 =
          ((List.range ([1, -1] : List ℚ).length).map (fun j =>
            ([1, -1] : List ℚ).getD j 0 *
              (fun v : List ℚ => v.getD 0 0 * v.getD 1 0)
                (perturb [1, 2] i (([1, -1] : List ℚ).getD j 0 * 1)))).sum
            / (2 * 1)) ∧
      J.length = ([1, 2] : List ℚ).length ∧
      (∀ i < ([1, 2] : List ℚ).length,
        (J.getD i []).length =
          ((fun v : List ℚ => [v.getD 0 0 + v.getD 1 0]) ([1, 2] : List ℚ)).length ∧
        ∀ r < ((fun v : List ℚ => [v.getD 0 0 + v.getD 1 0]) ([1, 2] : List ℚ)).length,
          (J.getD i []).getD r 0 =
            ((List.range ([1, -1] : List ℚ).length).map (fun j =>
              ([1, -1] : List ℚ).getD j 0 *
                ((fun v : List ℚ => [v.getD 0 0 + v.getD 1 0])
                  (perturb [1, 2] i (([1, -1] : List ℚ).getD j 0 * 1))).getD r 0)).sum
              / (2 * 1))) :=
  ⟨⟨rfl, rfl, rfl, fun _ => rfl⟩,
    gradient_jacobian_stencil_formula [1, 2]
      (fun v => v.getD 0 0 * v.getD 1 0)
      (fun v => [v.getD 0 0 + v.getD 1 0])
      SECOND 1 [1, -1] [1, -1] 2 rfl rfl rfl (fun _ => rfl)⟩

/-! ## The Hessian loop, characterized -/

/-- Restoring both perturbed coordinates (in the source's order: `j`, then `i`)
recovers the original point exactly, also when `i = j`. -/
theorem perturb2_restore (x : List ℚ) (i j : ℕ) (a b : ℚ) :
    ((perturb (perturb x i a) j b).set j (x.getD j 0)).set i (x.getD i 0) = x := by
  by_cases hij : j = i
  · subst hij
    simp only [perturb, List.set_set]
    exact getD_set_self x j 0
  · simp only [perturb, List.set_set]
    rw [show x.getD j 0 = (x.set i (x.getD i 0 + a)).getD j 0 from
      (getD_set_ne x _ 0 (fun e => hij e.symm)).symm]
    rw [getD_set_self, List.set_set, getD_set_self]

/-- A doubly-perturbed point agrees with the original away from `i` and `j`. -/
theorem perturb2_getD_ne (x : List ℚ) {i j m : ℕ} (a b : ℚ)
    (h1 : i ≠ m) (h2 : j ≠ m) :
    (perturb (perturb x i a) j b).getD m 0 = x.getD m 0 := by
  rw [perturb_getD_ne _ _ h2, perturb_getD_ne _ _ h1]

/-- The double stencil loop of `finite_hessian`, characterized over an
arbitrary list of coefficient pairs. -/
theorem hess_steps_spec (x : List ℚ) (f : List ℚ → ℚ) (i j : ℕ) (eps : ℚ)
    (L : List ((ℚ × ℚ) × ℚ × ℚ)) (s : HessInner) (h : s.xm = x) :
    L.foldl (hess_inner_step x f i j eps) s =
      { xm := x
        acc := s.acc + (L.map (fun c => c.1.1 * c.2.1 *
          f (perturb (perturb x i (c.1.2 * eps)) j (c.2.2 * eps)))).sum
        evals := s.evals ++
          L.map (fun c => perturb (perturb x i (c.1.2 * eps)) j (c.2.2 * eps))
        trace := s.trace ++ L.map (fun _ => x) } := by
  induction L generalizing s with
  | nil =>
    obtain ⟨xm, acc, ev, tr⟩ := s
    simp only [HessInner.mk.injEq] at h ⊢
    simp [h]
  | cons c cs ih =>
    have hstep : hess_inner_step x f i j eps s c =
        { xm := x
          acc := s.acc + c.1.1 * c.2.1 *
            f (perturb (perturb x i (c.1.2 * eps)) j (c.2.2 * eps))
          evals := s.evals ++ [perturb (perturb x i (c.1.2 * eps)) j (c.2.2 * eps)]
          trace := s.trace ++ [x] } := by
      simp only [hess_inner_step, h]
      rw [perturb2_restore]
    simp only [List.foldl_cons]
    rw [ih (hess_inner_step x f i j eps s c) (by rw [hstep]), hstep]
    simp [add_assoc]

/-- The inner `j` loop of `finite_hessian`, characterized. -/
theorem hess_jloop_spec (x : List ℚ) (f : List ℚ → ℚ) (eps : ℚ)
    (coeffs : List (ℚ × ℚ)) (denom2 : ℚ) (i : ℕ) (Lj : List ℕ) (s : HessOuter)
    (h : s.xm = x) :
    Lj.foldl (hess_pair_step x f eps coeffs denom2 i) s =
      { xm := x
        hess := Lj.foldl (fun H j =>
          hess_write H i j (hessVal x f eps coeffs denom2 i j)) s.hess
        evals := s.evals ++ Lj.flatMap (fun j =>
          (coeffs.flatMap (fun a => coeffs.map (fun b => (a, b)))).map
            (fun c => (i, j, perturb (perturb x i (c.1.2 * eps)) j (c.2.2 * eps))))
        trace := s.trace ++ Lj.flatMap (fun j =>
          (coeffs.flatMap (fun a => coeffs.map (fun b => (a, b)))).map
            (fun _ => x)) } := by
  induction Lj generalizing s with
  | nil =>
    obtain ⟨xm, hs, ev, tr⟩ := s
    simp only [HessOuter.mk.injEq] at h ⊢
    simp [h]
  | cons j Lj ih =>
    have hin := hess_steps_spec x f i j eps
      (coeffs.flatMap (fun a => coeffs.map (fun b => (a, b)))) ⟨x, 0, [], []⟩ rfl
    have hxm : (hess_inner x f i j eps coeffs ⟨x, 0, [], []⟩).xm = x := by
      simp only [hess_inner]
      rw [hin]
    have hev : (hess_inner x f i j eps coeffs ⟨x, 0, [], []⟩).evals =
        (coeffs.flatMap (fun a => coeffs.map (fun b => (a, b)))).map
          (fun c => perturb (perturb x i (c.1.2 * eps)) j (c.2.2 * eps)) := by
      simp only [hess_inner]
      rw [hin]
      simp
    have htr : (hess_inner x f i j eps coeffs ⟨x, 0, [], []⟩).trace =
        (coeffs.flatMap (fun a => coeffs.map (fun b => (a, b)))).map
          (fun _ => x) := by
      simp only [hess_inner]
      rw [hin]
      simp
    have hstep : hess_pair_step x f eps coeffs denom2 i s j =
        { xm := x
          hess := hess_write s.hess i j (hessVal x f eps coeffs denom2 i j)
          evals := s.evals ++
            (coeffs.flatMap (fun a => coeffs.map (fun b => (a, b)))).map
              (fun c => (i, j, perturb (perturb x i (c.1.2 * eps)) j (c.2.2 * eps)))
          trace := s.trace ++
            (coeffs.flatMap (fun a => coeffs.map (fun b => (a, b)))).map
              (fun _ => x) } := by
      simp only [hess_pair_step, h, HessOuter.mk.injEq]
      refine ⟨hxm, rfl, ?_, ?_⟩
      · rw [hev]; simp [List.map_map, Function.comp_def]
      · rw [htr]
    simp only [List.foldl_cons]
    rw [ih (hess_pair_step x f eps coeffs denom2 i s j) (by rw [hstep]), hstep]
    simp [List.flatMap_cons, List.append_assoc]

/-- The outer `i` loop of `finite_hessian`, characterized. -/
theorem hess_iloop_spec (x : List ℚ) (f : List ℚ → ℚ) (eps : ℚ)
    (coeffs : List (ℚ × ℚ)) (denom2 : ℚ) (n : ℕ) (Li : List ℕ) (s : HessOuter)
    (h : s.xm = x) :
    Li.foldl (fun s i => (List.range' i (n - i)).foldl
      (hess_pair_step x f eps coeffs denom2 i) s) s =
      { xm := x
        hess := Li.foldl (fun H i => (List.range' i (n - i)).foldl (fun H j =>
          hess_write H i j (hessVal x f eps coeffs denom2 i j)) H) s.hess
        evals := s.evals ++ Li.flatMap (fun i =>
          (List.range' i (n - i)).flatMap (fun j =>
            (coeffs.flatMap (fun a => coeffs.map (fun b => (a, b)))).map
              (fun c => (i, j, perturb (perturb x i (c.1.2 * eps)) j (c.2.2 * eps)))))
        trace := s.trace ++ Li.flatMap (fun i =>
          (List.range' i (n - i)).flatMap (fun j =>
            (coeffs.flatMap (fun a => coeffs.map (fun b => (a, b)))).map
              (fun _ => x))) } := by
  induction Li generalizing s with
  | nil =>
    obtain ⟨xm, hs, ev, tr⟩ := s
    simp only [HessOuter.mk.injEq] at h ⊢
    simp [h]
  | cons i Li ih =>
    have hstep := hess_jloop_spec x f eps coeffs denom2 i
      (List.range' i (n - i)) s h
    simp only [List.foldl_cons]
    rw [ih ((List.range' i (n - i)).foldl
      (hess_pair_step x f eps coeffs denom2 i) s) (by rw [hstep]), hstep]
    simp [List.flatMap_cons, List.append_assoc]

/-! ## Matrix writes and the symmetric store -/

theorem set2_length (M : List (List ℚ)) (i j : ℕ) (v : ℚ) :
    (set2 M i j v).length = M.length := by
  simp [set2]

theorem set2_getD_row_ne (M : List (List ℚ)) {i a : ℕ} (j : ℕ) (v : ℚ)
    (h : i ≠ a) : (set2 M i j v).getD a [] = M.getD a [] :=
  getD_set_ne _ _ _ h

theorem set2_getD_row_eq (M : List (List ℚ)) {i : ℕ} (j : ℕ) (v : ℚ)
    (h : i < M.length) : (set2 M i j v).getD i [] = (M.getD i []).set j v :=
  getD_set_eq _ _ _ _ h

theorem entry_set2_eq (M : List (List ℚ)) {i j : ℕ} (v : ℚ)
    (hi : i < M.length) (hj : j < (M.getD i []).length) :
    entry (set2 M i j v) i j = v := by
  rw [entry, set2_getD_row_eq M j v hi, getD_set_eq _ _ _ _ hj]

theorem entry_set2_ne (M : List (List ℚ)) {i j a b : ℕ} (v : ℚ)
    (hne : a ≠ i ∨ b ≠ j) :
    entry (set2 M i j v) a b = entry M a b := by
  rcases hne with h | h
  · rw [entry, set2_getD_row_ne M j v (fun e => h e.symm), entry]
  · by_cases hai : a = i
    · subst hai
      by_cases hlt : a < M.length
      · rw [entry, set2_getD_row_eq M j v hlt,
          getD_set_ne _ _ _ (fun e => h e.symm), entry]
      · rw [entry, set2, List.set_eq_of_length_le (Nat.le_of_not_lt hlt), entry]
    · rw [entry, set2_getD_row_ne M j v (fun e => hai e.symm), entry]

theorem set2_shape {M : List (List ℚ)} {n : ℕ} (hsh : ShapeN M n) {i : ℕ}
    (j : ℕ) (v : ℚ) (hi : i < n) : ShapeN (set2 M i j v) n := by
  obtain ⟨h1, h2⟩ := hsh
  refine ⟨by rw [set2_length, h1], fun a ha => ?_⟩
  by_cases hai : i = a
  · subst hai
    rw [set2_getD_row_eq M j v (by rw [h1]; exact hi), List.length_set]
    exact h2 i hi
  · rw [set2_getD_row_ne M j v hai]
    exact h2 a ha

theorem hess_write_shape {M : List (List ℚ)} {n : ℕ} (hsh : ShapeN M n)
    {i j : ℕ} (v : ℚ) (hi : i < n) (hj : j < n) :
    ShapeN (hess_write M i j v) n :=
  set2_shape (set2_shape hsh j v hi) i v hj

theorem hess_write_entry_self {M : List (List ℚ)} {n : ℕ} (hsh : ShapeN M n)
    {i j : ℕ} (v : ℚ) (hi : i < n) (hj : j < n) :
    entry (hess_write M i j v) i j = v ∧ entry (hess_write M i j v) j i = v := by
  have hsh2 := set2_shape hsh j v hi
  constructor
  · by_cases hij : i = j
    · subst hij
      exact entry_set2_eq _ v (by rw [hsh2.1]; exact hi)
        (by rw [hsh2.2 i hi]; exact hi)
    · rw [hess_write, entry_set2_ne _ v (Or.inl hij)]
      exact entry_set2_eq _ v (by rw [hsh.1]; exact hi)
        (by rw [hsh.2 i hi]; exact hj)
  · exact entry_set2_eq _ v (by rw [hsh2.1]; exact hj)
      (by rw [hsh2.2 j hj]; exact hi)

theorem hess_write_entry_other (M : List (List ℚ)) {i j a b : ℕ} (v : ℚ)
    (h1 : (a, b) ≠ (i, j)) (h2 : (a, b) ≠ (j, i)) :
    entry (hess_write M i j v) a b = entry M a b := by
  have o1 : a ≠ i ∨ b ≠ j := by
    by_contra hc
    push_neg at hc
    exact h1 (by rw [hc.1, hc.2])
  have o2 : a ≠ j ∨ b ≠ i := by
    by_contra hc
    push_neg at hc
    exact h2 (by rw [hc.1, hc.2])
  rw [hess_write, entry_set2_ne _ v o2, entry_set2_ne _ v o1]

/-- Later pairs of the upper-triangle sweep never touch the two cells written
for a pair `(i, j)` that is not among them. -/
theorem hfold_preserve (v : ℕ → ℕ → ℚ) (L : List (ℕ × ℕ)) (H : List (List ℚ))
    {i j : ℕ} (hij : i ≤ j) (hL : ∀ p ∈ L, p.1 ≤ p.2) (hnm : (i, j) ∉ L) :
    entry (L.foldl (fun H p => hess_write H p.1 p.2 (v p.1 p.2)) H) i j =
      entry H i j ∧
    entry (L.foldl (fun H p => hess_write H p.1 p.2 (v p.1 p.2)) H) j i =
      entry H j i := by
  induction L generalizing H with
  | nil => exact ⟨rfl, rfl⟩
  | cons q L ih =>
    have hq : q.1 ≤ q.2 := hL q (List.mem_cons_self q L)
    have k1 : (i, j) ≠ (q.1, q.2) := by
      intro e
      exact hnm (e ▸ List.mem_cons_self q L)
    have k2 : (i, j) ≠ (q.2, q.1) := by
      intro e
      have e1 : i = q.2 := congrArg Prod.fst e
      have e2 : j = q.1 := congrArg Prod.snd e
      exact k1 (Prod.ext (by omega) (by omega))
    have k3 : (j, i) ≠ (q.1, q.2) := by
      intro e
      have e1 : j = q.1 := congrArg Prod.fst e
      have e2 : i = q.2 := congrArg Prod.snd e
      exact k1 (Prod.ext (by omega) (by omega))
    have k4 : (j, i) ≠ (q.2, q.1) := by
      intro e
      have e1 : j = q.2 := congrArg Prod.fst e
      have e2 : i = q.1 := congrArg Prod.snd e
      exact k1 (Prod.ext (by omega) (by omega))
    have p1 := hess_write_entry_other H (v q.1 q.2) k1 k2
    have p2 := hess_write_entry_other H (v q.1 q.2) k3 k4
    simp only [List.foldl_cons]
    obtain ⟨w1, w2⟩ := ih (hess_write H q.1 q.2 (v q.1 q.2))
      (fun p hp => hL p (List.mem_cons_of_mem _ hp))
      (fun hm => hnm (List.mem_cons_of_mem _ hm))
    exact ⟨w1.trans p1, w2.trans p2⟩

theorem hfold_shape (v : ℕ → ℕ → ℚ) (L : List (ℕ × ℕ)) (H : List (List ℚ))
    (n : ℕ) (hsh : ShapeN H n) (hL : ∀ p ∈ L, p.1 ≤ p.2 ∧ p.2 < n) :
    ShapeN (L.foldl (fun H p => hess_write H p.1 p.2 (v p.1 p.2)) H) n := by
  induction L generalizing H with
  | nil => exact hsh
  | cons q L ih =>
    have hq := hL q (List.mem_cons_self q L)
    simp only [List.foldl_cons]
    exact ih (hess_write H q.1 q.2 (v q.1 q.2))
      (hess_write_shape hsh _ (lt_of_le_of_lt hq.1 hq.2) hq.2)
      (fun p hp => hL p (List.mem_cons_of_mem _ hp))

/-- The upper-triangle sweep leaves `v i j` in both cells `(i, j)` and
`(j, i)`, for every visited pair. -/
theorem hfold_entry (v : ℕ → ℕ → ℚ) (L : List (ℕ × ℕ)) (H : List (List ℚ))
    (n : ℕ) (hsh : ShapeN H n) (hL : ∀ p ∈ L, p.1 ≤ p.2 ∧ p.2 < n)
    (hnd : L.Nodup) {i j : ℕ} (hij : i ≤ j) (hjn : j < n)
    (hmem : (i, j) ∈ L) :
    entry (L.foldl (fun H p => hess_write H p.1 p.2 (v p.1 p.2)) H) i j = v i j ∧
    entry (L.foldl (fun H p => hess_write H p.1 p.2 (v p.1 p.2)) H) j i = v i j := by
  induction L generalizing H with
  | nil => cases hmem
  | cons q L ih =>
    rcases List.nodup_cons.mp hnd with ⟨hqL, hndL⟩
    have hqb := hL q (List.mem_cons_self q L)
    have hsh' : ShapeN (hess_write H q.1 q.2 (v q.1 q.2)) n :=
      hess_write_shape hsh _ (lt_of_le_of_lt hqb.1 hqb.2) hqb.2
    by_cases hq : q = (i, j)
    · subst hq
      simp only [List.foldl_cons]
      have hpres := hfold_preserve v L (hess_write H i j (v i j)) hij
        (fun p hp => (hL p (List.mem_cons_of_mem _ hp)).1) hqL
      obtain ⟨w1, w2⟩ := hess_write_entry_self hsh (v i j)
        (lt_of_le_of_lt hij hjn) hjn
      exact ⟨hpres.1.trans w1, hpres.2.trans w2⟩
    · have hmem' : (i, j) ∈ L := by
        rcases List.mem_cons.mp hmem with h | h
        · exact absurd h.symm hq
        · exact h
      simp only [List.foldl_cons]
      exact ih (hess_write H q.1 q.2 (v q.1 q.2)) hsh'
        (fun p hp => hL p (List.mem_cons_of_mem _ hp)) hndL hmem'

/-! ## The visit order of the Hessian outer loops -/

theorem hessPairs_mem {n i j : ℕ} (hij : i ≤ j) (hjn : j < n) :
    (i, j) ∈ hessPairs n := by
  unfold hessPairs
  rw [List.mem_flatMap]
  refine ⟨i, List.mem_range.mpr (lt_of_le_of_lt hij hjn), ?_⟩
  rw [List.mem_map]
  exact ⟨j, List.mem_range'_1.mpr ⟨hij, by omega⟩, rfl⟩

theorem hessPairs_bounds {n : ℕ} (p : ℕ × ℕ) (h : p ∈ hessPairs n) :
    p.1 ≤ p.2 ∧ p.2 < n := by
  unfold hessPairs at h
  rw [List.mem_flatMap] at h
  obtain ⟨i, hi, hp⟩ := h
  rw [List.mem_map] at hp
  obtain ⟨j, hj, rfl⟩ := hp
  rw [List.mem_range'_1] at hj
  rw [List.mem_range] at hi
  exact ⟨hj.1, by omega⟩

theorem hessPairs_nodup (n : ℕ) : (hessPairs n).Nodup := by
  unfold hessPairs
  rw [List.nodup_flatMap]
  constructor
  · intro i _
    exact (List.nodup_range' i (n - i)).map
      (fun a b h => congrArg Prod.snd h)
  · refine (List.nodup_range n).imp ?_
    intro a b hne p hpa hpb
    rw [List.mem_map] at hpa hpb
    obtain ⟨ja, _, rfl⟩ := hpa
    obtain ⟨jb, _, e⟩ := hpb
    exact hne (congrArg Prod.fst e).symm

/-- Flattening the two nested coordinate loops of the Hessian into a single
fold over the visited pair list. -/
theorem hessPairs_foldl (n : ℕ) (W : List (List ℚ) → ℕ → ℕ → List (List ℚ))
    (H0 : List (List ℚ)) :
    (List.range n).foldl (fun H i =>
      (List.range' i (n - i)).foldl (fun H j => W H i j) H) H0 =
    (hessPairs n).foldl (fun H p => W H p.1 p.2) H0 := by
  rw [hessPairs, foldl_flatMap_eq]
  simp only [List.foldl_map]

/-- The raw double-stencil accumulator equals the nested weighted sum. -/
theorem hessValRaw_eq (x : List ℚ) (f : List ℚ → ℚ) (i j : ℕ) (eps : ℚ)
    (coeffs : List (ℚ × ℚ)) :
    hessValRaw x f i j eps coeffs =
      (coeffs.map (fun a => (coeffs.map (fun b =>
        a.1 * b.1 * f (perturb (perturb x i (a.2 * eps)) j (b.2 * eps)))).sum)).sum := by
  rw [hessValRaw]
  simp only [hess_inner]
  rw [hess_steps_spec x f i j eps _ _ rfl]
  simp [List.map_flatMap, sum_flatMap_eq, List.map_map, Function.comp_def]

/-! ## Claim C2 -/

/-- C2: for every point of dimension `n`, pure scalar function, valid accuracy
order with stencil `(outer, inner, denominator)` of length `s`, and every
`eps`: `finite_hessian` returns an `n × n` matrix in which, for every pair
`(i, j)` with `i ≤ j`, entry `(i, j)` is
`(Σ_{ci<s} Σ_{cj<s} outer[ci]·outer[cj]·f(x + inner[ci]·eps·e_i +
inner[cj]·eps·e_j)) / (denominator·eps)²`, and entry `(j, i)` equals entry
`(i, j)`, so the returned matrix is exactly symmetric. -/
theorem hessian_symmetric_formula
    (x : List ℚ) (f : List ℚ → ℚ) (accuracy : ℤ) (eps : ℚ)
    (outer inr : List ℚ) (d : ℚ)
    (ho : get_external_coeffs accuracy = Except.ok outer)
    (hi : get_interior_coeffs accuracy = Except.ok inr)
    (hd : get_denominator accuracy = Except.ok d) :
    ∃ H, finite_hessian x f accuracy eps = Except.ok H ∧
      ShapeN H x.length ∧
      ∀ i j, i ≤ j → j < x.length →
        entry H i j =
          ((List.range outer.length).map (fun ci =>
            ((List.range outer.length).map (fun cj =>
              outer.getD ci 0 * outer.getD cj 0 *
                f (perturb (perturb x i (inr.getD ci 0 * eps))
                  j (inr.getD cj 0 * eps)))).sum)).sum
            / (d * eps) ^ 2 ∧
        entry H j i = entry H i j := by
  have hlen := coeffs_length_eq accuracy outer inr ho hi
  have hh : finite_hessian x f accuracy eps = Except.ok
      ((finite_hessian_core x f (outer.zip inr) ((d * eps) * (d * eps)) eps).hess) := by
    simp only [finite_hessian, ho, hi, hd, except_bind_ok, except_pure]
  have hcore := hess_iloop_spec x f eps (outer.zip inr) ((d * eps) * (d * eps))
    x.length (List.range x.length)
    ⟨x, List.replicate x.length (List.replicate x.length 0), [], []⟩ rfl
  have hsh0 : ShapeN (List.replicate x.length (List.replicate x.length 0))
      x.length := by
    refine ⟨by simp, fun a ha => ?_⟩
    rw [getD_replicate_of_lt _ _ ha]
    simp
  have hhess : (finite_hessian_core x f (outer.zip inr)
      ((d * eps) * (d * eps)) eps).hess =
      (hessPairs x.length).foldl (fun H p => hess_write H p.1 p.2
        (hessVal x f eps (outer.zip inr) ((d * eps) * (d * eps)) p.1 p.2))
      (List.replicate x.length (List.replicate x.length 0)) := by
    unfold finite_hessian_core
    rw [hcore]
    exact hessPairs_foldl x.length _ _
  refine ⟨_, hh, ?_, ?_⟩
  · rw [hhess]
    exact hfold_shape _ _ _ _ hsh0 (fun p hp => hessPairs_bounds p hp)
  · intro i j hij hjn
    rw [hhess]
    obtain ⟨w1, w2⟩ := hfold_entry _ (hessPairs x.length) _ x.length hsh0
      (fun p hp => hessPairs_bounds p hp) (hessPairs_nodup x.length) hij hjn
      (hessPairs_mem hij hjn)
    refine ⟨?_, w2.trans w1.symm⟩
    rw [w1, hessVal, hessValRaw_eq, pow_two]
    rw [map_zip_eq_map_range (fun a₁ a₂ =>
      ((outer.zip inr).map (fun b => a₁ * b.1 *
        f (perturb (perturb x i (a₂ * eps)) j (b.2 * eps)))).sum) outer inr hlen]
    have hinner : ∀ ci : ℕ, ((outer.zip inr).map (fun b =>
        outer.getD ci 0 * b.1 *
          f (perturb (perturb x i (inr.getD ci 0 * eps)) j (b.2 * eps)))).sum =
        ((List.range outer.length).map (fun cj =>
          outer.getD ci 0 * outer.getD cj 0 *
            f (perturb (perturb x i (inr.getD ci 0 * eps))
              j (inr.getD cj 0 * eps)))).sum := fun ci => by
      rw [map_zip_eq_map_range (fun b₁ b₂ => outer.getD ci 0 * b₁ *
        f (perturb (perturb x i (inr.getD ci 0 * eps)) j (b₂ * eps))) outer inr hlen]
    simp only [hinner]

/-- Witness for C2 at a concrete input: `x = [1, 2]`, `f(v) = v₀·v₁`,
SECOND order, `eps = 1`. -/
theorem hessian_symmetric_formula_witness :
    (get_external_coeffs SECOND = Except.ok [1, -1] ∧
     get_interior_coeffs SECOND = Except.ok [1, -1] ∧
     get_denominator SECOND = Except.ok 2) ∧
    (∃ H, finite_hessian [1, 2] (fun v => v.getD 0 0 * v.getD 1 0) SECOND 1 =
        Except.ok H ∧
      ShapeN H ([1, 2] : List ℚ).length ∧
      ∀ i j, i ≤ j → j < ([1, 2] : List ℚ).length →
        entry H i j =
          ((List.range ([1, -1] : List ℚ).length).map (fun ci =>
            ((List.range ([1, -1] : List ℚ).length).map (fun cj =>
              ([1, -1] : List ℚ).getD ci 0 * ([1, -1] : List ℚ).getD cj 0 *
                (fun v : List ℚ => v.getD 0 0 * v.getD 1 0)
                  (perturb (perturb [1, 2] i (([1, -1] : List ℚ).getD ci 0 * 1))
                    j (([1, -1] : List ℚ).getD cj 0 * 1)))).sum)).sum
            / (2 * 1) ^ 2 ∧
        entry H j i = entry H i j) :=
  ⟨⟨rfl, rfl, rfl⟩,
    hessian_symmetric_formula [1, 2] (fun v => v.getD 0 0 * v.getD 1 0)
      SECOND 1 [1, -1] [1, -1] 2 rfl rfl rfl⟩

/-! ## Claim C3 -/

/-- C3: for every call to the gradient, Jacobian, or Hessian loop: the working
copy equals the caller's point `x` when the loop finishes (the caller's `x` is
never written at all in this embedding); after every stencil step the working
copy is restored to `x` exactly (`trace`); and every evaluation of the target
function receives a point that differs from `x` in at most the one coordinate
(gradient/Jacobian) or the two coordinates (Hessian) being perturbed. -/
theorem working_point_restore_invariant
    (x : List ℚ) (f : List ℚ → ℚ) (F : List ℚ → List ℚ)
    (coeffs : List (ℚ × ℚ)) (denom denom2 eps : ℚ) :
    ((finite_gradient_core x f coeffs denom eps).xm = x ∧
     (∀ t ∈ (finite_gradient_core x f coeffs denom eps).trace, t = x) ∧
     (∀ p ∈ (finite_gradient_core x f coeffs denom eps).evals,
       ∀ m, m ≠ p.1 → p.2.getD m 0 = x.getD m 0)) ∧
    ((finite_jacobian_core x F coeffs denom eps).xm = x ∧
     (∀ t ∈ (finite_jacobian_core x F coeffs denom eps).trace, t = x) ∧
     (∀ p ∈ (finite_jacobian_core x F coeffs denom eps).evals,
       ∀ m, m ≠ p.1 → p.2.getD m 0 = x.getD m 0)) ∧
    ((finite_hessian_core x f coeffs denom2 eps).xm = x ∧
     (∀ t ∈ (finite_hessian_core x f coeffs denom2 eps).trace, t = x) ∧
     (∀ p ∈ (finite_hessian_core x f coeffs denom2 eps).evals,
       ∀ m, m ≠ p.1 → m ≠ p.2.1 → p.2.2.getD m 0 = x.getD m 0)) := by
  have hg := grad_outer_spec x f eps coeffs denom (List.range x.length)
    ⟨x, List.replicate x.length 0, [], []⟩ rfl
  have hj := jac_outer_spec x F eps coeffs denom (List.range x.length)
    ⟨x, List.replicate x.length (List.replicate (F x).length 0), [], []⟩ rfl
  have hh := hess_iloop_spec x f eps coeffs denom2 x.length (List.range x.length)
    ⟨x, List.replicate x.length (List.replicate x.length 0), [], []⟩ rfl
  have g1 : (finite_gradient_core x f coeffs denom eps).xm = x := by
    unfold finite_gradient_core
    rw [hg]
  have g2 : (finite_gradient_core x f coeffs denom eps).trace =
      (List.range x.length).flatMap (fun _ => coeffs.map (fun _ => x)) := by
    unfold finite_gradient_core
    rw [hg]
    simp
  have g3 : (finite_gradient_core x f coeffs denom eps).evals =
      (List.range x.length).flatMap
        (fun i => coeffs.map (fun c => (i, perturb x i (c.2 * eps)))) := by
    unfold finite_gradient_core
    rw [hg]
    simp
  have j1 : (finite_jacobian_core x F coeffs denom eps).xm = x := by
    unfold finite_jacobian_core
    rw [hj]
  have j2 : (finite_jacobian_core x F coeffs denom eps).trace =
      (List.range x.length).flatMap (fun _ => coeffs.map (fun _ => x)) := by
    unfold finite_jacobian_core
    rw [hj]
    simp
  have j3 : (finite_jacobian_core x F coeffs denom eps).evals =
      (List.range x.length).flatMap
        (fun i => coeffs.map (fun c => (i, perturb x i (c.2 * eps)))) := by
    unfold finite_jacobian_core
    rw [hj]
    simp
  have h1 : (finite_hessian_core x f coeffs denom2 eps).xm = x := by
    unfold finite_hessian_core
    rw [hh]
  have h2 : (finite_hessian_core x f coeffs denom2 eps).trace =
      (List.range x.length).flatMap (fun i =>
        (List.range' i (x.length - i)).flatMap (fun j =>
          (coeffs.flatMap (fun a => coeffs.map (fun b => (a, b)))).map
            (fun _ => x))) := by
    unfold finite_hessian_core
    rw [hh]
    simp
  have h3 : (finite_hessian_core x f coeffs denom2 eps).evals =
      (List.range x.length).flatMap (fun i =>
        (List.range' i (x.length - i)).flatMap (fun j =>
          (coeffs.flatMap (fun a => coeffs.map (fun b => (a, b)))).map
            (fun c => (i, j, perturb (perturb x i (c.1.2 * eps))
              j (c.2.2 * eps))))) := by
    unfold finite_hessian_core
    rw [hh]
    simp
  refine ⟨⟨g1, ?_, ?_⟩, ⟨j1, ?_, ?_⟩, ⟨h1, ?_, ?_⟩⟩
  · intro t ht
    rw [g2] at ht
    simp only [List.mem_flatMap, List.mem_map] at ht
    obtain ⟨_, _, _, _, h⟩ := ht
    exact h.symm
  · intro p hp m hm
    rw [g3] at hp
    simp only [List.mem_flatMap, List.mem_map] at hp
    obtain ⟨a, _, c, _, rfl⟩ := hp
    exact perturb_getD_ne x _ (Ne.symm hm)
  · intro t ht
    rw [j2] at ht
    simp only [List.mem_flatMap, List.mem_map] at ht
    obtain ⟨_, _, _, _, h⟩ := ht
    exact h.symm
  · intro p hp m hm
    rw [j3] at hp
    simp only [List.mem_flatMap, List.mem_map] at hp
    obtain ⟨a, _, c, _, rfl⟩ := hp
    exact perturb_getD_ne x _ (Ne.symm hm)
  · intro t ht
    rw [h2] at ht
    simp only [List.mem_flatMap, List.mem_map] at ht
    obtain ⟨_, _, _, _, _, _, h⟩ := ht
    exact h.symm
  · intro p hp m hm1 hm2
    rw [h3] at hp
    simp only [List.mem_flatMap, List.mem_map] at hp
    obtain ⟨a, _, b, _, c, _, rfl⟩ := hp
    exact perturb2_getD_ne x _ _ (Ne.symm hm1) (Ne.symm hm2)

/-- Witness for C3 at a concrete input: `x = [1, 2]`, SECOND-order coefficient
pairs, `eps = 1`. -/
theorem working_point_restore_invariant_witness :
    ((finite_gradient_core [1, 2] (fun v => v.getD 0 0)
        [(1, 1), (-1, -1)] 2 1).xm = [1, 2] ∧
     (∀ t ∈ (finite_gradient_core [1, 2] (fun v => v.getD 0 0)
        [(1, 1), (-1, -1)] 2 1).trace, t = [1, 2]) ∧
     (∀ p ∈ (finite_gradient_core [1, 2] (fun v => v.getD 0 0)
        [(1, 1), (-1, -1)] 2 1).evals,
       ∀ m, m ≠ p.1 → p.2.getD m 0 = ([1, 2] : List ℚ).getD m 0)) ∧
    ((finite_jacobian_core [1, 2] (fun v => [v.getD 1 0])
        [(1, 1), (-1, -1)] 2 1).xm = [1, 2] ∧
     (∀ t ∈ (finite_jacobian_core [1, 2] (fun v => [v.getD 1 0])
        [(1, 1), (-1, -1)] 2 1).trace, t = [1, 2]) ∧
     (∀ p ∈ (finite_jacobian_core [1, 2] (fun v => [v.getD 1 0])
        [(1, 1), (-1, -1)] 2 1).evals,
       ∀ m, m ≠ p.1 → p.2.getD m 0 = ([1, 2] : List ℚ).getD m 0)) ∧
    ((finite_hessian_core [1, 2] (fun v => v.getD 0 0)
        [(1, 1), (-1, -1)] 4 1).xm = [1, 2] ∧
     (∀ t ∈ (finite_hessian_core [1, 2] (fun v => v.getD 0 0)
        [(1, 1), (-1, -1)] 4 1).trace, t = [1, 2]) ∧
     (∀ p ∈ (finite_hessian_core [1, 2] (fun v => v.getD 0 0)
        [(1, 1), (-1, -1)] 4 1).evals,
       ∀ m, m ≠ p.1 → m ≠ p.2.1 → p.2.2.getD m 0 = ([1, 2] : List ℚ).getD m 0)) :=
  working_point_restore_invariant [1, 2] (fun v => v.getD 0 0)
    (fun v => [v.getD 1 0]) [(1, 1), (-1, -1)] 2 4 1

/-! ## Claim C4 -/

/-- C4: the coefficient lookup returns exactly the documented stencil
parameters for the four accuracy orders, and whenever the two coefficient
lookups succeed the two sequences have equal, even length. -/
theorem coefficient_tables_values :
    get_external_coeffs SECOND = Except.ok [1, -1] ∧
    get_interior_coeffs SECOND = Except.ok [1, -1] ∧
    get_denominator SECOND = Except.ok 2 ∧
    get_external_coeffs FOURTH = Except.ok [1, -8, 8, -1] ∧
    get_interior_coeffs FOURTH = Except.ok [-2, -1, 1, 2] ∧
    get_denominator FOURTH = Except.ok 12 ∧
    get_external_coeffs SIXTH = Except.ok [-1, 9, -45, 45, -9, 1] ∧
    get_interior_coeffs SIXTH = Except.ok [-3, -2, -1, 1, 2, 3] ∧
    get_denominator SIXTH = Except.ok 60 ∧
    get_external_coeffs EIGHTH = Except.ok [3, -32, 168, -672, 672, -168, 32, -3] ∧
    get_interior_coeffs EIGHTH = Except.ok [-4, -3, -2, -1, 1, 2, 3, 4] ∧
    get_denominator EIGHTH = Except.ok 840 ∧
    ∀ (a : ℤ) (outer inr : List ℚ),
      get_external_coeffs a = Except.ok outer →
      get_interior_coeffs a = Except.ok inr →
      outer.length = inr.length ∧ Even outer.length := by
  refine ⟨rfl, rfl, rfl, rfl, rfl, rfl, rfl, rfl, rfl, rfl, rfl, rfl, ?_⟩
  intro a outer inr ho hi
  unfold get_external_coeffs at ho
  unfold get_interior_coeffs at hi
  split_ifs at ho hi
  all_goals first
    | (cases ho; cases hi; exact ⟨rfl, by decide⟩)
    | cases ho

/-- Witness for C4's quantified part at the SECOND order. -/
theorem coefficient_tables_values_witness :
    get_external_coeffs SECOND = Except.ok [1, -1] ∧
    ([1, -1] : List ℚ).length = ([1, -1] : List ℚ).length ∧
      Even ([1, -1] : List ℚ).length := by
  have h := coefficient_tables_values
  exact ⟨h.1, h.2.2.2.2.2.2.2.2.2.2.2.2 SECOND [1, -1] [1, -1] rfl rfl⟩

/-! ## Claim C10 -/

/-- C10: `compare_hessian` returns exactly what `compare_jacobian` returns on
the same arguments — it is definitionally the Jacobian comparison. -/
theorem compare_hessian_is_compare_jacobian
    (x y : List (List ℚ)) (test_eps : ℚ) (msg : String) :
    compare_hessian x y test_eps msg = compare_jacobian x y test_eps msg := rfl

/-! ## The comparison loops, characterized -/

/-- The diagnostic flag loop: starting from `s`, the result is `true` exactly
when `s` was `true` and no element failed the check. -/
theorem foldl_flag {P : ℕ → Prop} [DecidablePred P] (L : List ℕ) (s : Bool) :
    (L.foldl (fun same i => if P i then false else same) s = true) ↔
      (s = true ∧ ∀ i ∈ L, ¬ P i) := by
  induction L generalizing s with
  | nil => simp
  | cons a L ih =>
    simp only [List.foldl_cons]
    by_cases hP : P a
    · rw [if_pos hP, ih, List.forall_mem_cons]
      tauto
    · rw [if_neg hP, ih, List.forall_mem_cons]
      tauto

/-- Two-level version of `foldl_flag`, for the row/column loops. -/
theorem foldl_flag2 {P : ℕ → ℕ → Prop} [∀ i j, Decidable (P i j)]
    (L1 L2 : List ℕ) (s : Bool) :
    (L1.foldl (fun same i =>
      L2.foldl (fun same j => if P i j then false else same) same) s = true) ↔
      (s = true ∧ ∀ i ∈ L1, ∀ j ∈ L2, ¬ P i j) := by
  induction L1 generalizing s with
  | nil => simp
  | cons a L ih =>
    simp only [List.foldl_cons]
    rw [ih, foldl_flag]
    simp only [List.forall_mem_cons]
    tauto

/-! ## Claim C5 -/

/-- C5: on same-shaped inputs, `compare_gradient` and `compare_jacobian`
return `true` exactly when every element pair satisfies
`|x - y| ≤ test_eps * max (max |x| |y|) 1` (the conjunction over all
elements, so empty inputs compare as `true`), and the diagnostic label `msg`
has no effect on the returned boolean. -/
theorem compare_elementwise_tolerance
    (x y : List ℚ) (X Y : List (List ℚ)) (test_eps : ℚ) (msg : String)
    (hv : x.length = y.length)
    (hr : rowsCount X = rowsCount Y) (hc : colsCount X = colsCount Y) :
    (∃ b, compare_gradient x y test_eps msg = Except.ok b ∧
      (b = true ↔ ∀ i < x.length,
        |x.getD i 0 - y.getD i 0| ≤
          test_eps * max (max |x.getD i 0| |y.getD i 0|) 1) ∧
      ∀ msg', compare_gradient x y test_eps msg' =
        compare_gradient x y test_eps msg) ∧
    (∃ b, compare_jacobian X Y test_eps msg = Except.ok b ∧
      (b = true ↔ ∀ i < rowsCount X, ∀ j < colsCount X,
        |entry X i j - entry Y i j| ≤
          test_eps * max (max |entry X i j| |entry Y i j|) 1) ∧
      ∀ msg', compare_jacobian X Y test_eps msg' =
        compare_jacobian X Y test_eps msg) := by
  constructor
  · refine ⟨_, by rw [compare_gradient, if_pos hv], ?_, fun msg' => rfl⟩
    rw [foldl_flag]
    simp [List.mem_range, not_lt]
  · refine ⟨_, by rw [compare_jacobian, if_pos ⟨hr, hc⟩], ?_, fun msg' => rfl⟩
    rw [foldl_flag2]
    simp [List.mem_range, not_lt]

/-- Witness for C5 at concrete inputs: equal vectors and matrices. -/
theorem compare_elementwise_tolerance_witness :
    (([1, 2] : List ℚ).length = ([1, 2] : List ℚ).length ∧
     rowsCount [[1, 2]] = rowsCount [[3, 4]] ∧
     colsCount [[1, 2]] = colsCount [[3, 4]]) ∧
    ((∃ b, compare_gradient [1, 2] [1, 2] (1/100) "compare_gradient " =
        Except.ok b ∧
      (b = true ↔ ∀ i < ([1, 2] : List ℚ).length,
        |([1, 2] : List ℚ).getD i 0 - ([1, 2] : List ℚ).getD i 0| ≤
          (1/100 : ℚ) * max (max |([1, 2] : List ℚ).getD i 0|
            |([1, 2] : List ℚ).getD i 0|) 1) ∧
      ∀ msg', compare_gradient [1, 2] [1, 2] (1/100) msg' =
        compare_gradient [1, 2] [1, 2] (1/100) "compare_gradient ") ∧
    (∃ b, compare_jacobian [[1, 2]] [[3, 4]] (1/100) "compare_gradient " =
        Except.ok b ∧
      (b = true ↔ ∀ i < rowsCount [[1, 2]], ∀ j < colsCount [[1, 2]],
        |entry [[1, 2]] i j - entry [[3, 4]] i j| ≤
          (1/100 : ℚ) * max (max |entry [[1, 2]] i j| |entry [[3, 4]] i j|) 1) ∧
      ∀ msg', compare_jacobian [[1, 2]] [[3, 4]] (1/100) msg' =
        compare_jacobian [[1, 2]] [[3, 4]] (1/100) "compare_gradient ")) :=
  ⟨⟨rfl, rfl, rfl⟩,
    compare_elementwise_tolerance [1, 2] [1, 2] [[1, 2]] [[3, 4]] (1/100)
      "compare_gradient " rfl rfl rfl⟩

/-! ## Claim C7 -/

/-- C7: every invalid configuration fails with an error and never silently
substitutes a default: an accuracy value outside the four enumerators makes
every lookup — and hence every differencing engine — fail with
`invalid accuracy order`; a shape mismatch between the comparison inputs
fails the precondition assert; `unflatten` fails when the input length is not
a multiple of `dim`. -/
theorem invalid_configuration_fails :
    (∀ a : ℤ, a ≠ SECOND → a ≠ FOURTH → a ≠ SIXTH → a ≠ EIGHTH →
      get_external_coeffs a = Except.error "invalid accuracy order" ∧
      get_interior_coeffs a = Except.error "invalid accuracy order" ∧
      get_denominator a = Except.error "invalid accuracy order" ∧
      ∀ (x : List ℚ) (f : List ℚ → ℚ) (F : List ℚ → List ℚ) (eps : ℚ),
        finite_gradient x f a eps = Except.error "invalid accuracy order" ∧
        finite_jacobian x F a eps = Except.error "invalid accuracy order" ∧
        finite_hessian x f a eps = Except.error "invalid accuracy order") ∧
    (∀ (x y : List ℚ) (t : ℚ) (m : String), x.length ≠ y.length →
      ∃ e, compare_gradient x y t m = Except.error e) ∧
    (∀ (X Y : List (List ℚ)) (t : ℚ) (m : String),
      ¬ (rowsCount X = rowsCount Y ∧ colsCount X = colsCount Y) →
      ∃ e, compare_jacobian X Y t m = Except.error e) ∧
    (∀ (v : List ℚ) (dim : ℕ), ¬ (dim ∣ v.length) →
      ∃ e, unflatten v dim = Except.error e) := by
  refine ⟨?_, ?_, ?_, ?_⟩
  · intro a h0 h1 h2 h3
    have he : get_external_coeffs a = Except.error "invalid accuracy order" := by
      rw [get_external_coeffs, if_neg h0, if_neg h1, if_neg h2, if_neg h3]
    refine ⟨he, ?_, ?_, ?_⟩
    · rw [get_interior_coeffs, if_neg h0, if_neg h1, if_neg h2, if_neg h3]
    · rw [get_denominator, if_neg h0, if_neg h1, if_neg h2, if_neg h3]
    · intro x f F eps
      refine ⟨?_, ?_, ?_⟩
      · simp only [finite_gradient, he, except_bind_error]
      · simp only [finite_jacobian, he, except_bind_error]
      · simp only [finite_hessian, he, except_bind_error]
  · intro x y t m h
    exact ⟨_, by rw [compare_gradient, if_neg h]⟩
  · intro X Y t m h
    exact ⟨_, by rw [compare_jacobian, if_neg h]⟩
  · intro v dim h
    have hng : ¬ (v.length % dim = 0 ∧ dim ≠ 0) := by
      rintro ⟨h1, -⟩
      exact h (Nat.dvd_of_mod_eq_zero h1)
    exact ⟨_, by rw [unflatten, if_neg hng]⟩

/-- Witness for C7 at concrete inputs: accuracy value `7`, vectors of lengths
1 and 2, a `1 × 2` against a `2 × 1` matrix, and a length-3 vector with
`dim = 2`. -/
theorem invalid_configuration_fails_witness :
    ((7 : ℤ) ≠ SECOND ∧ (7 : ℤ) ≠ FOURTH ∧ (7 : ℤ) ≠ SIXTH ∧ (7 : ℤ) ≠ EIGHTH ∧
     ([1] : List ℚ).length ≠ ([1, 2] : List ℚ).length ∧
     ¬ (rowsCount [[1, 2]] = rowsCount [[1], [2]] ∧
        colsCount [[1, 2]] = colsCount [[1], [2]]) ∧
     ¬ ((2 : ℕ) ∣ ([1, 2, 3] : List ℚ).length)) ∧
    (get_external_coeffs 7 = Except.error "invalid accuracy order" ∧
     get_interior_coeffs 7 = Except.error "invalid accuracy order" ∧
     get_denominator 7 = Except.error "invalid accuracy order" ∧
     ∀ (x : List ℚ) (f : List ℚ → ℚ) (F : List ℚ → List ℚ) (eps : ℚ),
       finite_gradient x f 7 eps = Except.error "invalid accuracy order" ∧
       finite_jacobian x F 7 eps = Except.error "invalid accuracy order" ∧
       finite_hessian x f 7 eps = Except.error "invalid accuracy order") ∧
    (∃ e, compare_gradient [1] [1, 2] 1 "m" = Except.error e) ∧
    (∃ e, compare_jacobian [[1, 2]] [[1], [2]] 1 "m" = Except.error e) ∧
    (∃ e, unflatten [1, 2, 3] 2 = Except.error e) :=
  ⟨⟨by decide, by decide, by decide, by decide, by decide, by decide, by decide⟩,
    invalid_configuration_fails.1 7 (by decide) (by decide) (by decide) (by decide),
    invalid_configuration_fails.2.1 [1] [1, 2] 1 "m" (by decide),
    invalid_configuration_fails.2.2.1 [[1, 2]] [[1], [2]] 1 "m" (by decide),
    invalid_configuration_fails.2.2.2 [1, 2, 3] 2 (by decide)⟩

/-! ## Claim C8 -/

/-- C8 (code evaluation at the failing input): called on a `2 × 3` and a
`3 × 2` matrix — the shapes of the repository's own negative test —
`compare_jacobian` hits its shape `assert` (a precondition failure, an abort
in a debug build) instead of returning `false` as that test and the claim
require. -/
theorem compare_jacobian_mismatched_shape_asserts :
    compare_jacobian [[1, 2, 3], [4, 5, 6]] [[1, 2], [3, 4], [5, 6]]
      (1/10000) "compare_jacobian " =
      Except.error
        "assertion failed: x.rows() == y.rows() && x.cols() == y.cols()" := by
  rw [compare_jacobian, if_neg]
  rintro ⟨h, -⟩
  simp [rowsCount] at h

/-! ## The flatten/unflatten reindexing -/

theorem getD_eq_getElem {α : Type _} (l : List α) (d : α) {n : ℕ}
    (h : n < l.length) : l.getD n d = l[n] := by
  rw [List.getD_eq_getElem?_getD, List.getElem?_eq_getElem h]
  rfl

theorem getD_mem {α : Type _} (l : List α) (d : α) {n : ℕ} (h : n < l.length) :
    l.getD n d ∈ l := by
  rw [getD_eq_getElem l d h]
  exact List.getElem_mem h

theorem foldl_preserve_length {α : Type _} (step : List α → ℕ → List α)
    (hstep : ∀ v i, (step v i).length = v.length) (L : List ℕ) (v : List α) :
    (L.foldl step v).length = v.length := by
  induction L generalizing v with
  | nil => rfl
  | cons a L ih => rw [List.foldl_cons, ih (step v a), hstep]

/-- `flatten` returns a vector of `X.size() = rows * cols` entries. -/
theorem flatten_length (X : List (List ℚ)) :
    (flatten X).length = rowsCount X * colsCount X := by
  have hstep : ∀ (v : List ℚ) (i : ℕ),
      ((List.range (colsCount X)).foldl
        (fun v j => v.set (i * colsCount X + j) (entry X i j)) v).length =
        v.length :=
    fun v i => foldl_preserve_length _ (fun w j => List.length_set w _ _) _ _
  rw [flatten, foldl_preserve_length _ hstep, List.length_replicate]

theorem rcPairs_mem {r c i j : ℕ} (hi : i < r) (hj : j < c) :
    (i, j) ∈ rcPairs r c := by
  unfold rcPairs
  rw [List.mem_flatMap]
  refine ⟨i, List.mem_range.mpr hi, ?_⟩
  rw [List.mem_map]
  exact ⟨j, List.mem_range.mpr hj, rfl⟩

theorem rcPairs_bounds {r c : ℕ} (p : ℕ × ℕ) (h : p ∈ rcPairs r c) :
    p.1 < r ∧ p.2 < c := by
  unfold rcPairs at h
  rw [List.mem_flatMap] at h
  obtain ⟨i, hi, hp⟩ := h
  rw [List.mem_map] at hp
  obtain ⟨j, hj, rfl⟩ := hp
  exact ⟨List.mem_range.mp hi, List.mem_range.mp hj⟩

theorem rcPairs_nodup (r c : ℕ) : (rcPairs r c).Nodup := by
  unfold rcPairs
  rw [List.nodup_flatMap]
  constructor
  · intro i _
    exact (List.nodup_range c).map (fun a b h => congrArg Prod.snd h)
  · refine (List.nodup_range r).imp ?_
    intro a b hne p hpa hpb
    rw [List.mem_map] at hpa hpb
    obtain ⟨ja, _, rfl⟩ := hpa
    obtain ⟨jb, _, e⟩ := hpb
    exact hne (congrArg Prod.fst e).symm

theorem rcPairs_foldl {γ : Type _} (r c : ℕ) (W : γ → ℕ → ℕ → γ) (v0 : γ) :
    (List.range r).foldl (fun v i =>
      (List.range c).foldl (fun v j => W v i j) v) v0 =
    (rcPairs r c).foldl (fun v p => W v p.1 p.2) v0 := by
  rw [rcPairs, foldl_flatMap_eq]
  simp only [List.foldl_map]

/-- Row-major index arithmetic: `i * c + j` with `j < c` determines `(i, j)`. -/
theorem rowcol_index_inj {c a b a' b' : ℕ} (hb : b < c) (hb' : b' < c)
    (e : a * c + b = a' * c + b') : a = a' ∧ b = b' := by
  have h1 : (a * c + b) % c = b := by
    rw [mul_comm, Nat.mul_add_mod, Nat.mod_eq_of_lt hb]
  have h2 : (a' * c + b') % c = b' := by
    rw [mul_comm, Nat.mul_add_mod, Nat.mod_eq_of_lt hb']
  have hbb : b = b' := by rw [← h1, ← h2, e]
  have hc : 0 < c := lt_of_le_of_lt (Nat.zero_le b) hb
  refine ⟨Nat.eq_of_mul_eq_mul_right hc (by omega), hbb⟩

theorem index_lt {r c i j : ℕ} (hi : i < r) (hj : j < c) : i * c + j < r * c := by
  have h1 : i * c + j < (i + 1) * c := by
    rw [Nat.succ_mul]
    omega
  exact lt_of_lt_of_le h1 (Nat.mul_le_mul_right _ hi)

theorem vfold_preserve (g : ℕ × ℕ → ℚ) (c : ℕ) (P : List (ℕ × ℕ)) (v : List ℚ)
    {i j : ℕ} (hj : j < c) (hP : ∀ p ∈ P, p.2 < c) (hnm : (i, j) ∉ P) :
    (P.foldl (fun v p => v.set (p.1 * c + p.2) (g p)) v).getD (i * c + j) 0 =
      v.getD (i * c + j) 0 := by
  induction P generalizing v with
  | nil => rfl
  | cons q P ih =>
    have hq2 : q.2 < c := hP q (List.mem_cons_self q P)
    have hne : q.1 * c + q.2 ≠ i * c + j := by
      intro e
      obtain ⟨e1, e2⟩ := rowcol_index_inj hq2 hj e
      exact hnm (by
        rw [show (i, j) = q from Prod.ext e1.symm e2.symm]
        exact List.mem_cons_self q P)
    simp only [List.foldl_cons]
    rw [ih _ (fun p hp => hP p (List.mem_cons_of_mem _ hp))
      (fun hm => hnm (List.mem_cons_of_mem _ hm)), getD_set_ne _ _ _ hne]

theorem vfold_entry (g : ℕ × ℕ → ℚ) (c : ℕ) (P : List (ℕ × ℕ)) (v : List ℚ)
    (hnd : P.Nodup) {i j : ℕ} (hj : j < c) (hlt : i * c + j < v.length)
    (hP : ∀ p ∈ P, p.2 < c) (hmem : (i, j) ∈ P) :
    (P.foldl (fun v p => v.set (p.1 * c + p.2) (g p)) v).getD (i * c + j) 0 =
      g (i, j) := by
  induction P generalizing v with
  | nil => cases hmem
  | cons q P ih =>
    rcases List.nodup_cons.mp hnd with ⟨hqP, hndP⟩
    by_cases hq : q = (i, j)
    · subst hq
      simp only [List.foldl_cons]
      rw [vfold_preserve g c P _ hj
        (fun p hp => hP p (List.mem_cons_of_mem _ hp)) hqP,
        getD_set_eq _ _ _ _ hlt]
    · have hmem' : (i, j) ∈ P := by
        rcases List.mem_cons.mp hmem with h | h
        · exact absurd h.symm hq
        · exact h
      simp only [List.foldl_cons]
      exact ih _ hndP (by simpa using hlt)
        (fun p hp => hP p (List.mem_cons_of_mem _ hp)) hmem'

/-- `flatten` places element `(i, j)` at index `i * cols + j`. -/
theorem flatten_getD (X : List (List ℚ)) {i j : ℕ}
    (hi : i < rowsCount X) (hj : j < colsCount X) :
    (flatten X).getD (i * colsCount X + j) 0 = entry X i j := by
  have hconv : flatten X =
      (rcPairs (rowsCount X) (colsCount X)).foldl
        (fun v p => v.set (p.1 * colsCount X + p.2) (entry X p.1 p.2))
        (List.replicate (rowsCount X * colsCount X) 0) :=
    rcPairs_foldl (rowsCount X) (colsCount X)
      (fun (v : List ℚ) (i j : ℕ) => v.set (i * colsCount X + j) (entry X i j))
      (List.replicate (rowsCount X * colsCount X) 0)
  rw [hconv]
  have hlt : i * colsCount X + j <
      (List.replicate (rowsCount X * colsCount X) (0 : ℚ)).length := by
    rw [List.length_replicate]
    exact index_lt hi hj
  exact vfold_entry (fun p => entry X p.1 p.2) (colsCount X) _ _
    (rcPairs_nodup _ _) hj hlt (fun p hp => (rcPairs_bounds p hp).2)
    (rcPairs_mem hi hj)

theorem set2_shapeRC {M : List (List ℚ)} {r c : ℕ} (hsh : ShapeRC M r c)
    (i j : ℕ) (v : ℚ) : ShapeRC (set2 M i j v) r c := by
  obtain ⟨h1, h2⟩ := hsh
  refine ⟨by rw [set2_length, h1], fun a ha => ?_⟩
  by_cases hai : i = a
  · subst hai
    rw [set2_getD_row_eq M j v (by rw [h1]; exact ha), List.length_set]
    exact h2 i ha
  · rw [set2_getD_row_ne M j v hai]
    exact h2 a ha

theorem set2fold_shapeRC (w : ℕ → ℚ) (c : ℕ) (L : List ℕ) (M : List (List ℚ))
    {r : ℕ} (hsh : ShapeRC M r c) :
    ShapeRC (L.foldl (fun M t => set2 M (t / c) (t % c) (w t)) M) r c := by
  induction L generalizing M with
  | nil => exact hsh
  | cons t L ih =>
    simp only [List.foldl_cons]
    exact ih _ (set2_shapeRC hsh _ _ _)

theorem set2fold_preserve (w : ℕ → ℚ) (c : ℕ) (L : List ℕ) (M : List (List ℚ))
    {i j : ℕ} (hj : j < c) (hL : ∀ t ∈ L, t ≠ i * c + j) :
    entry (L.foldl (fun M t => set2 M (t / c) (t % c) (w t)) M) i j =
      entry M i j := by
  induction L generalizing M with
  | nil => rfl
  | cons t L ih =>
    have ht : t ≠ i * c + j := hL t (List.mem_cons_self t L)
    have hor : i ≠ t / c ∨ j ≠ t % c := by
      by_contra hc
      push_neg at hc
      have : i * c + j = t := by
        rw [hc.1, hc.2, mul_comm]
        exact Nat.div_add_mod t c
      exact ht this.symm
    simp only [List.foldl_cons]
    rw [ih _ (fun t' ht' => hL t' (List.mem_cons_of_mem _ ht')),
      entry_set2_ne _ _ hor]

theorem set2fold_entry (w : ℕ → ℚ) (c : ℕ) (L : List ℕ) (M : List (List ℚ))
    {r i j : ℕ} (hsh : ShapeRC M r c) (hnd : L.Nodup) (hi : i < r) (hj : j < c)
    (hmem : i * c + j ∈ L) :
    entry (L.foldl (fun M t => set2 M (t / c) (t % c) (w t)) M) i j =
      w (i * c + j) := by
  induction L generalizing M with
  | nil => cases hmem
  | cons t L ih =>
    rcases List.nodup_cons.mp hnd with ⟨htL, hndL⟩
    by_cases ht : t = i * c + j
    · subst ht
      simp only [List.foldl_cons]
      rw [set2fold_preserve w c L _ hj (fun t' ht' e => htL (e ▸ ht'))]
      have hcpos : 0 < c := lt_of_le_of_lt (Nat.zero_le j) hj
      have hdiv : (i * c + j) / c = i := by
        rw [mul_comm, Nat.mul_add_div hcpos, Nat.div_eq_of_lt hj]
        omega
      have hmod : (i * c + j) % c = j := by
        rw [mul_comm, Nat.mul_add_mod, Nat.mod_eq_of_lt hj]
      rw [hdiv, hmod]
      exact entry_set2_eq M (w _) (by rw [hsh.1]; exact hi)
        (by rw [hsh.2 i hi]; exact hj)
    · have hmem' : i * c + j ∈ L := by
        rcases List.mem_cons.mp hmem with h | h
        · exact absurd h.symm ht
        · exact h
      simp only [List.foldl_cons]
      exact ih _ (set2_shapeRC hsh _ _ _) hndL hmem'

/-- Two same-shaped matrices with equal entries are equal. -/
theorem mat_ext {A B : List (List ℚ)} {r c : ℕ} (hA : ShapeRC A r c)
    (hB : ShapeRC B r c) (h : ∀ i < r, ∀ j < c, entry A i j = entry B i j) :
    A = B := by
  apply List.ext_getElem (by rw [hA.1, hB.1])
  intro n h1 h2
  have hn : n < r := by rw [← hA.1]; exact h1
  rw [← getD_eq_getElem A [] h1, ← getD_eq_getElem B [] h2]
  apply List.ext_getElem (by rw [hA.2 n hn, hB.2 n hn])
  intro m m1 m2
  have hm : m < c := by rw [← hA.2 n hn]; exact m1
  rw [← getD_eq_getElem _ 0 m1, ← getD_eq_getElem _ 0 m2]
  exact h n hn m hm

/-- The exact round trip, for matrices with at least one column. -/
theorem unflatten_flatten (X : List (List ℚ)) (hwf : MatWF X)
    (hc : 0 < colsCount X) :
    unflatten (flatten X) (colsCount X) = Except.ok X := by
  have hXsh : ShapeRC X (rowsCount X) (colsCount X) :=
    ⟨rfl, fun a ha => hwf (X.getD a []) (getD_mem X [] ha)⟩
  have hlenf := flatten_length X
  have hcne : colsCount X ≠ 0 := Nat.pos_iff_ne_zero.mp hc
  rw [unflatten,
    if_pos ⟨by rw [hlenf]; exact Nat.mul_mod_left _ _, hcne⟩]
  congr 1
  have hdivlen : (flatten X).length / colsCount X = rowsCount X := by
    rw [hlenf]
    exact Nat.mul_div_cancel _ hc
  have hsh0 : ShapeRC (List.replicate ((flatten X).length / colsCount X)
      (List.replicate (colsCount X) (0 : ℚ))) (rowsCount X) (colsCount X) := by
    refine ⟨by rw [List.length_replicate, hdivlen], fun a ha => ?_⟩
    rw [getD_replicate_of_lt _ _ (by rw [hdivlen]; exact ha),
      List.length_replicate]
  apply mat_ext (set2fold_shapeRC _ _ _ _ hsh0) hXsh
  intro i hi j hj
  have hmem : i * colsCount X + j ∈ List.range (flatten X).length := by
    rw [List.mem_range, hlenf]
    exact index_lt hi hj
  rw [set2fold_entry _ _ _ _ hsh0 (List.nodup_range _) hi hj hmem]
  exact flatten_getD X hi hj

/-! ## Claim C6 -/

/-- C6 counterexample: for the well-formed `2 × 0` matrix `[[], []]` the
round-trip law fails — `unflatten(flatten(X), X.cols())` calls `unflatten`
with `dim = 0`, where the C++ `x.size() % dim` is a division by zero
(an immediate failure), not the original matrix. -/
theorem flatten_round_trip_fails_zero_cols :
    MatWF [([] : List ℚ), []] ∧
    unflatten (flatten [([] : List ℚ), []]) (colsCount [([] : List ℚ), []]) ≠
      Except.ok [([] : List ℚ), []] :=
  ⟨by unfold MatWF; decide, fun h => Except.noConfusion h⟩

/-- C6 (amended): `flatten` maps every `r × c` matrix to the length-`r·c`
vector with element `(i, j)` at index `i·c + j`, and for every matrix with at
least one column the round trip `unflatten(flatten(X), X.cols()) = X` holds
exactly. -/
theorem flatten_layout_and_round_trip (X : List (List ℚ)) (hwf : MatWF X) :
    (flatten X).length = rowsCount X * colsCount X ∧
    (∀ i < rowsCount X, ∀ j < colsCount X,
      (flatten X).getD (i * colsCount X + j) 0 = entry X i j) ∧
    (0 < colsCount X →
      unflatten (flatten X) (colsCount X) = Except.ok X) :=
  ⟨flatten_length X, fun i hi j hj => flatten_getD X hi hj,
   fun hc => unflatten_flatten X hwf hc⟩

/-- Witness for C6's amended claim at `X = [[1, 2]]`. -/
theorem flatten_layout_and_round_trip_witness :
    MatWF [[1, 2]] ∧
    ((flatten [[1, 2]]).length = rowsCount [[1, 2]] * colsCount [[1, 2]] ∧
     (∀ i < rowsCount [[1, 2]], ∀ j < colsCount [[1, 2]],
       (flatten [[1, 2]]).getD (i * colsCount [[1, 2]] + j) 0 =
         entry [[1, 2]] i j) ∧
     (0 < colsCount [[1, 2]] →
       unflatten (flatten [[1, 2]]) (colsCount [[1, 2]]) =
         Except.ok [[1, 2]])) :=
  ⟨by unfold MatWF; decide,
    flatten_layout_and_round_trip [[1, 2]] (by unfold MatWF; decide)⟩

/-! ## Claim C9 -/

theorem getD_map_lt {α β : Type _} (f : α → β) (v : List α) (dα : α) (dβ : β)
    {r : ℕ} (h : r < v.length) : (v.map f).getD r dβ = f (v.getD r dα) := by
  rw [getD_eq_getElem _ _ (by simpa using h), getD_eq_getElem _ _ h,
    List.getElem_map]

theorem getD_range {n r : ℕ} (h : r < n) : (List.range n).getD r 0 = r := by
  rw [getD_eq_getElem _ _ (by simpa using h)]
  simp

/-- Entry of a matrix built row-by-row from an entry function. -/
theorem entry_map_map {p q : ℕ} (E : ℕ → ℕ → ℚ) {r t : ℕ}
    (hr : r < p) (ht : t < q) :
    entry ((List.range p).map (fun i => (List.range q).map (fun j => E i j)))
     r t = E r t := by
  rw [entry, getD_map_lt _ _ 0 [] (by simpa using hr), getD_range hr,
    getD_map_lt _ _ 0 0 (by simpa using ht), getD_range ht]

theorem shape_map_map (p q : ℕ) (E : ℕ → ℕ → ℚ) :
    ShapeRC ((List.range p).map (fun i =>
      (List.range q).map (fun j => E i j))) p q := by
  refine ⟨by simp, fun a ha => ?_⟩
  rw [getD_map_lt _ _ 0 [] (by simpa using ha)]
  simp

/-- C9: `finite_jacobian_tensor<T>` computes exactly
`finite_jacobian<T % 2 == 0>`; with even tensor order the derivative slice of
input coordinate `k` occupies the contiguous column-block of width
`q = F(x).cols()` starting at column `q·k` of a `p × (q·n)` matrix, and with
odd order the column-major flattening of that slice is column `k` of a
`(p·q) × n` matrix (entry `(i, j)` of the slice at row `j·p + i`). -/
theorem jacobian_tensor_layout
    (tensorOrder : ℤ) (x : List ℚ) (F : List ℚ → List (List ℚ))
    (accuracy : ℤ) (eps : ℚ) (outer inr : List ℚ) (d : ℚ)
    (ho : get_external_coeffs accuracy = Except.ok outer)
    (hi : get_interior_coeffs accuracy = Except.ok inr)
    (hd : get_denominator accuracy = Except.ok d) :
    finite_jacobian_tensor tensorOrder x F accuracy eps =
      finite_jacobian_mat (tensorOrder % 2 == 0) x F accuracy eps ∧
    ∃ J, finite_jacobian_tensor tensorOrder x F accuracy eps = Except.ok J ∧
      (tensorOrder % 2 = 0 →
        ShapeRC J (rowsCount (F x)) (colsCount (F x) * x.length) ∧
        ∀ k < x.length, ∀ r < rowsCount (F x), ∀ j < colsCount (F x),
          entry J r (colsCount (F x) * k + j) =
            ((List.range outer.length).map (fun s =>
              outer.getD s 0 *
                entry (F (perturb x k (inr.getD s 0 * eps))) r j)).sum
              / (d * eps)) ∧
      (tensorOrder % 2 ≠ 0 →
        ShapeRC J (rowsCount (F x) * colsCount (F x)) x.length ∧
        ∀ k < x.length, ∀ r < rowsCount (F x), ∀ j < colsCount (F x),
          entry J (j * rowsCount (F x) + r) k =
            ((List.range outer.length).map (fun s =>
              outer.getD s 0 *
                entry (F (perturb x k (inr.getD s 0 * eps))) r j)).sum
              / (d * eps)) := by
  refine ⟨rfl, ?_⟩
  rcases Bool.eq_false_or_eq_true (tensorOrder % 2 == 0) with hb | hb
  · have hmod : tensorOrder % 2 = 0 := beq_iff_eq.mp hb
    have heval : finite_jacobian_tensor tensorOrder x F accuracy eps =
        Except.ok ((List.range (rowsCount (F x))).map
          (fun r => (List.range (colsCount (F x) * x.length)).map (fun t =>
            entry (jac_slice x F outer inr d eps (t / colsCount (F x)))
              r (t % colsCount (F x))))) := by
      rw [finite_jacobian_tensor, hb]
      simp only [finite_jacobian_mat, ho, hi, hd, except_bind_ok, except_pure]
      split <;> simp_all
    refine ⟨_, heval, fun _ => ?_, fun h => absurd hmod h⟩
    constructor
    · exact shape_map_map _ _ _
    · intro k hk r hr j hj
      have hq : 0 < colsCount (F x) := lt_of_le_of_lt (Nat.zero_le j) hj
      have hidx : colsCount (F x) * k + j < colsCount (F x) * x.length := by
        have h1 : colsCount (F x) * k + j < colsCount (F x) * (k + 1) := by
          rw [Nat.mul_succ]
          omega
        exact lt_of_lt_of_le h1 (Nat.mul_le_mul_left _ hk)
      rw [entry_map_map _ hr hidx]
      have hdivq : (colsCount (F x) * k + j) / colsCount (F x) = k := by
        rw [Nat.mul_add_div hq, Nat.div_eq_of_lt hj]
        omega
      have hmodq : (colsCount (F x) * k + j) % colsCount (F x) = j := by
        rw [Nat.mul_add_mod, Nat.mod_eq_of_lt hj]
      rw [hdivq, hmodq, jac_slice, entry_map_map _ hr hj]
  · have hmod : tensorOrder % 2 ≠ 0 := by
      intro h
      rw [h] at hb
      simp at hb
    have heval : finite_jacobian_tensor tensorOrder x F accuracy eps =
        Except.ok ((List.range (rowsCount (F x) * colsCount (F x))).map
          (fun t => (List.range x.length).map (fun k =>
            entry (jac_slice x F outer inr d eps k)
              (t % rowsCount (F x)) (t / rowsCount (F x))))) := by
      rw [finite_jacobian_tensor, hb]
      simp only [finite_jacobian_mat, ho, hi, hd, except_bind_ok, except_pure]
      split <;> simp_all
    refine ⟨_, heval, fun h => absurd h hmod, fun _ => ?_⟩
    constructor
    · exact shape_map_map _ _ _
    · intro k hk r hr j hj
      have hp : 0 < rowsCount (F x) := lt_of_le_of_lt (Nat.zero_le r) hr
      have hidx : j * rowsCount (F x) + r < rowsCount (F x) * colsCount (F x) := by
        have h1 : j * rowsCount (F x) + r < (j + 1) * rowsCount (F x) := by
          rw [Nat.succ_mul]
          omega
        have h2 : (j + 1) * rowsCount (F x) ≤ colsCount (F x) * rowsCount (F x) :=
          Nat.mul_le_mul_right _ hj
        exact lt_of_lt_of_le h1 (h2.trans_eq (mul_comm _ _))
      rw [entry_map_map _ hidx hk]
      have hmodp : (j * rowsCount (F x) + r) % rowsCount (F x) = r := by
        rw [mul_comm, Nat.mul_add_mod, Nat.mod_eq_of_lt hr]
      have hdivp : (j * rowsCount (F x) + r) / rowsCount (F x) = j := by
        rw [mul_comm, Nat.mul_add_div hp, Nat.div_eq_of_lt hr]
        omega
      rw [hmodp, hdivp, jac_slice, entry_map_map _ hr hj]

/-- Witness for C9 at a concrete input: tensor order 4, `x = [1]`,
`F(v) = [[v₀]]`, SECOND order, `eps = 1`. -/
theorem jacobian_tensor_layout_witness :
    (get_external_coeffs SECOND = Except.ok [1, -1] ∧
     get_interior_coeffs SECOND = Except.ok [1, -1] ∧
     get_denominator SECOND = Except.ok 2) ∧
    (finite_jacobian_tensor 4 [1] (fun v => [[v.getD 0 0]]) SECOND 1 =
      finite_jacobian_mat ((4 : ℤ) % 2 == 0) [1]
        (fun v => [[v.getD 0 0]]) SECOND 1 ∧
    ∃ J, finite_jacobian_tensor 4 [1] (fun v => [[v.getD 0 0]]) SECOND 1 =
        Except.ok J ∧
      ((4 : ℤ) % 2 = 0 →
        ShapeRC J (rowsCount ((fun v : List ℚ => [[v.getD 0 0]]) [1]))
          (colsCount ((fun v : List ℚ => [[v.getD 0 0]]) [1]) *
            ([1] : List ℚ).length) ∧
        ∀ k < ([1] : List ℚ).length,
          ∀ r < rowsCount ((fun v : List ℚ => [[v.getD 0 0]]) [1]),
          ∀ j < colsCount ((fun v : List ℚ => [[v.getD 0 0]]) [1]),
          entry J r (colsCount ((fun v : List ℚ => [[v.getD 0 0]]) [1]) * k + j) =
            ((List.range ([1, -1] : List ℚ).length).map (fun s =>
              ([1, -1] : List ℚ).getD s 0 *
                entry ((fun v : List ℚ => [[v.getD 0 0]])
                  (perturb [1] k (([1, -1] : List ℚ).getD s 0 * 1))) r j)).sum
              / (2 * 1)) ∧
      ((4 : ℤ) % 2 ≠ 0 →
        ShapeRC J (rowsCount ((fun v : List ℚ => [[v.getD 0 0]]) [1]) *
            colsCount ((fun v : List ℚ => [[v.getD 0 0]]) [1]))
          ([1] : List ℚ).length ∧
        ∀ k < ([1] : List ℚ).length,
          ∀ r < rowsCount ((fun v : List ℚ => [[v.getD 0 0]]) [1]),
          ∀ j < colsCount ((fun v : List ℚ => [[v.getD 0 0]]) [1]),
          entry J (j * rowsCount ((fun v : List ℚ => [[v.getD 0 0]]) [1]) + r) k =
            ((List.range ([1, -1] : List ℚ).length).map (fun s =>
              ([1, -1] : List ℚ).getD s 0 *
                entry ((fun v : List ℚ => [[v.getD 0 0]])
                  (perturb [1] k (([1, -1] : List ℚ).getD s 0 * 1))) r j)).sum
              / (2 * 1))) :=
  ⟨⟨rfl, rfl, rfl⟩,
    jacobian_tensor_layout 4 [1] (fun v => [[v.getD 0 0]]) SECOND 1
      [1, -1] [1, -1] 2 rfl rfl rfl⟩
